import Mathlib

/-!
Verification of the valedger currency core (src/currencies/models.py and
src/currencies/signals.py) against its natural-language specification.

Modelling conventions (shallow embedding):

* Python `Decimal` values are modelled as exact rationals (`ℚ`).  The rate
  model field is `DecimalField(max_digits=10, decimal_places=4)`, so every
  value written to the store is quantized to 4 fractional digits with
  round-half-even (`Decimal`'s default rounding); `quant4` below performs
  exactly that quantization.  Values held in memory by a Python instance
  (e.g. the `factor` attribute of the instance that a `post_save` signal
  receives) keep full precision and are modelled as unquantized rationals.
  (Python's 28-significant-digit division differs from exact division only
  at distances far below the 4-digit quantization step for in-range field
  values, so exact division composed with `quant4` agrees with the code's
  `Decimal` pipeline.)
* Database rows are association lists; the `ConversionFactor` table has a
  uniqueness constraint on `(from_currency, to_currency, date)`, modelled
  by the `WFStore` predicate.  Filtering a decimal column against a Python
  value compares the value quantized to the column's scale (Django's
  `adapt_decimalfield_value`).
* Django signals (`post_save` / `post_delete`) fire synchronously after
  each write, recursively: writes performed inside a handler trigger the
  handler again.  This recursion is embedded with explicit fuel; exhausting
  the fuel (value `none`) marks a run of handlers that does not terminate.
  For the delete handler the recursion structurally shrinks the store, so
  it is defined by well-founded recursion instead.
* Currencies are referenced by their primary key (`ℕ`).
-/

/-- Round a rational to the nearest integer, ties to even
(the rounding used by Python's `Decimal.quantize` default context). -/
def roundHalfEven (q : ℚ) : ℤ :=
  if q - ⌊q⌋ < 1/2 then ⌊q⌋
  else if 1/2 < q - ⌊q⌋ then ⌊q⌋ + 1
  else if ⌊q⌋ % 2 = 0 then ⌊q⌋ else ⌊q⌋ + 1

/-- Quantize a rational to 4 fractional decimal digits (the scale of the
`factor` column, `DecimalField(max_digits=10, decimal_places=4)`). -/
def quant4 (q : ℚ) : ℚ := (roundHalfEven (q * 10000) : ℚ) / 10000

/-- A rational is representable at the store's 4-fractional-digit scale. -/
def Repr4 (q : ℚ) : Prop := (q * 10000).den = 1

instance (q : ℚ) : Decidable (Repr4 q) := by unfold Repr4; infer_instance

/-- The reciprocal factor the maintainer stores for a saved factor `f`:
`0` for `0`, otherwise `1/f` quantized to the column scale.  This is the
value `create_or_update_reverse_conversion_rate` both filters on and
writes (Django quantizes both the filter probe and the stored value). -/
def reverseStored (f : ℚ) : ℚ := if f = 0 then 0 else quant4 (1 / f)

/-- A row of the conversion-rate table (`ConversionFactor` in
src/currencies/models.py): a directed, dated rate observation. -/
structure ConversionFactor where
  from_currency : ℕ
  to_currency : ℕ
  date : ℕ
  factor : ℚ
  deriving DecidableEq, Repr

/-- The uniqueness key of a rate row (`unique_together` of the model). -/
def ConversionFactor.key (r : ConversionFactor) : ℕ × ℕ × ℕ :=
  (r.from_currency, r.to_currency, r.date)

/-- The rate store: the list of rows of the conversion-rate table,
in insertion order. -/
abbrev RateStore := List ConversionFactor

/-- Store well-formedness: the `(from, to, date)` uniqueness constraint. -/
def WFStore (s : RateStore) : Prop :=
  s.Pairwise (fun r₁ r₂ => r₁.key ≠ r₂.key)

/-- Point query for the factor stored under a `(from, to, date)` key
(`ConversionRate.objects.get(...)`; under the uniqueness constraint at
most one row matches). -/
def lookupFactor : RateStore → ℕ → ℕ → ℕ → Option ℚ
  | [], _, _, _ => none
  | r :: s, a, b, d => if r.key = (a, b, d) then some r.factor else lookupFactor s a b d

/-- Upsert (`update_or_create`): if a row with the key exists its factor
is replaced in place, otherwise a fresh row is appended.  The stored
factor is the written value quantized to the column scale. -/
def upsertRate : RateStore → ℕ → ℕ → ℕ → ℚ → RateStore
  | [], a, b, d, f => [⟨a, b, d, quant4 f⟩]
  | r :: s, a, b, d, f =>
    if r.key = (a, b, d) then { r with factor := quant4 f } :: s
    else r :: upsertRate s a b d f

/-- Delete the row with the given key (`instance.delete()` of the row
returned by `get`; under the uniqueness constraint at most one matches). -/
def eraseRate : RateStore → ℕ → ℕ → ℕ → RateStore
  | [], _, _, _ => []
  | r :: s, a, b, d => if r.key = (a, b, d) then s else r :: eraseRate s a b d

/-!
## Signal handlers (src/currencies/signals.py)

`create_or_update_reverse_conversion_rate` receives the saved instance:
it computes the raw reverse factor (`0` for `0`, else `1/factor` at full
precision), checks whether a row `(to, from, date)` with exactly that
factor (quantized by the column) exists, and otherwise upserts it.  The
upsert itself fires `post_save` again on the reverse instance, whose
in-memory factor is the raw reverse value; the recursion is given
explicit fuel, `none` marking a cascade that exceeds it (in the real
program: unbounded signal recursion).
-/

/-- In-memory instance passed to a signal handler: the row key plus the
full-precision factor the Python object holds. -/
structure RateInstance where
  from_currency : ℕ
  to_currency : ℕ
  date : ℕ
  factor : ℚ

/-- The raw reverse factor computed by the handler before any storage
quantization: `Decimal("0.0")` for zero, else `Decimal("1.0") / factor`. -/
def rawReverse (f : ℚ) : ℚ := if f = 0 then 0 else 1 / f

/-- The `post_save` receiver `create_or_update_reverse_conversion_rate`,
with fuel bounding the depth of signal re-triggering.  The existence
check `filter(from, to, date, factor=reverse_factor).exists()` is, under
the row-key uniqueness constraint, the comparison of the unique row's
factor with the probe quantized to the column scale. -/
def create_or_update_reverse_conversion_rate :
    Nat → RateStore → RateInstance → Option RateStore
  | 0, _, _ => none
  | fuel + 1, s, inst =>
    let g := rawReverse inst.factor
    if lookupFactor s inst.to_currency inst.from_currency inst.date = some (quant4 g) then
      some s
    else
      create_or_update_reverse_conversion_rate fuel
        (upsertRate s inst.to_currency inst.from_currency inst.date g)
        ⟨inst.to_currency, inst.from_currency, inst.date, g⟩

/-- Saving a rate row (`ConversionRate.objects.create(...)` or
`instance.save()`): the row is upserted, then the `post_save` handler
runs on the in-memory instance.  Two handler invocations always suffice
for a terminating cascade (see `saveRate_eq_of_ne`); `none` marks a
non-terminating cascade. -/
def saveRate (s : RateStore) (a b d : ℕ) (f : ℚ) : Option RateStore :=
  create_or_update_reverse_conversion_rate 2 (upsertRate s a b d f) ⟨a, b, d, f⟩

/-- The `post_delete` receiver `delete_reverse_conversion_rate`: look up
the reverse row `(to, from, date)`; if present delete it, which fires
`post_delete` on the deleted row in turn; absence is swallowed
(`ConversionRate.DoesNotExist`). -/
def delete_reverse_conversion_rate (s : RateStore) (a b d : ℕ) : RateStore :=
  if h : (lookupFactor s b a d).isSome then
    delete_reverse_conversion_rate (eraseRate s b a d) b a d
  else s
termination_by s.length
decreasing_by
  induction s with
  | nil => simp [lookupFactor] at h
  | cons x xs ih =>
    by_cases hx : x.key = (b, a, d)
    · simp [eraseRate, hx]
    · simp only [lookupFactor, if_neg hx] at h
      simp only [eraseRate, if_neg hx, List.length_cons]
      exact Nat.succ_lt_succ (ih h)

/-- Deleting a rate row (`instance.delete()`): the row is removed, then
the `post_delete` handler runs on the deleted instance. -/
def deleteRate (s : RateStore) (a b d : ℕ) : RateStore :=
  delete_reverse_conversion_rate (eraseRate s a b d) a b d

/-!
## Basic lemmas about the store operations
-/

/-- An external rate mutation: a create/update (`save`) or a delete. -/
inductive RateOp where
  | save (a b d : ℕ) (f : ℚ)
  | del (a b d : ℕ)

/-- A well-formed mutation: a save names two distinct currencies and a
factor representable at the column's 4-fractional-digit scale. -/
def WFRateOp : RateOp → Prop
  | .save a b _ f => a ≠ b ∧ Repr4 f
  | .del _ _ _ => True

/-- Apply one mutation (with its signal cascade) to the store. -/
def applyRateOp (s : RateStore) : RateOp → Option RateStore
  | .save a b d f => saveRate s a b d f
  | .del a b d => some (deleteRate s a b d)

/-- Run a sequence of mutations starting from the empty store; `none`
marks a sequence whose signal cascade does not terminate. -/
def runRateOps (ops : List RateOp) : Option RateStore :=
  ops.foldlM applyRateOp []

/-- The reciprocal invariant exactly as the specification states it: every
stored row `(A, B, date, f)` has a reverse row `(B, A, date, g)` whose
factor is the quantized reciprocal (`0` for `0`) of `f`. -/
def ClaimReciprocalInv (s : RateStore) : Prop :=
  ∀ r ∈ s, lookupFactor s r.to_currency r.from_currency r.date = some (reverseStored r.factor)

/-- The reciprocal invariant the code actually maintains: every stored row
has a same-date reverse row, and one of the two factors is the quantized
reciprocal of the other.  (Quantization is not an involution, so the
stronger per-row form `ClaimReciprocalInv` fails; see the C1 theorems.) -/
def ReciprocalInv (s : RateStore) : Prop :=
  ∀ r ∈ s, ∃ g, lookupFactor s r.to_currency r.from_currency r.date = some g ∧
    (g = reverseStored r.factor ∨ r.factor = reverseStored g)

/-- A row of the currency table. -/
structure Currency where
  pk : ℕ
  code : String
  name : String
  symbol : String
  is_base_currency : Bool
  deriving DecidableEq, Repr

/-- The currency table, in insertion order. -/
abbrev CurrencyStore := List Currency

/-- Primary-key uniqueness of the currency table. -/
def WFCurrencies (s : CurrencyStore) : Prop :=
  s.Pairwise (fun c₁ c₂ => c₁.pk ≠ c₂.pk)

/-- Fetch a currency row by primary key. -/
def lookupCurrency : CurrencyStore → ℕ → Option Currency
  | [], _ => none
  | c :: s, pk => if c.pk = pk then some c else lookupCurrency s pk

/-- Resolve a currency by its code (`Currency.objects.get(code=...)`;
the code column is unique, so the first match is the row). -/
def findByCode : CurrencyStore → String → Option Currency
  | [], _ => none
  | c :: s, code => if c.code = code then some c else findByCode s code

/-- Write a currency row (`super().save()`): replace the row with the
same primary key, or insert a fresh row. -/
def upsertCurrency : CurrencyStore → Currency → CurrencyStore
  | [], c => [c]
  | x :: s, c => if x.pk = c.pk then c :: s else x :: upsertCurrency s c

/-- Remove the row with the given primary key (`super().delete()`). -/
def removeCurrency : CurrencyStore → ℕ → CurrencyStore
  | [], _ => []
  | x :: s, pk => if x.pk = pk then s else x :: removeCurrency s pk

/-- `Currency.objects.exclude(pk=self.pk).update(is_base_currency=False)`. -/
def demoteOthers : CurrencyStore → ℕ → CurrencyStore
  | [], _ => []
  | c :: s, pk =>
    (if c.pk = pk then c else { c with is_base_currency := false }) :: demoteOthers s pk

/-- `Currency.objects.exclude(pk=self.pk).filter(is_base_currency=True).exists()`. -/
def existsOtherBase (s : CurrencyStore) (pk : ℕ) : Bool :=
  s.any (fun c => c.pk ≠ pk && c.is_base_currency)

/-- `Currency.objects.exclude(pk=self.pk).first()`. -/
def firstOther (s : CurrencyStore) (pk : ℕ) : Option Currency :=
  s.find? (fun c => c.pk ≠ pk)

/-- `Currency.save`: if the instance is marked base, demote all others;
otherwise, if no other base currency exists, promote the instance;
then write the row. -/
def Currency.save (s : CurrencyStore) (c : Currency) : CurrencyStore :=
  if c.is_base_currency then
    upsertCurrency (demoteOthers s c.pk) c
  else if existsOtherBase s c.pk = false then
    upsertCurrency s { c with is_base_currency := true }
  else
    upsertCurrency s c

/-- `Currency.delete`: if the deleted instance is base and another
currency exists, promote the first other currency (a full
`Currency.save`, which demotes everyone else); then remove the row. -/
def Currency.delete (s : CurrencyStore) (c : Currency) : CurrencyStore :=
  if c.is_base_currency then
    match firstOther s c.pk with
    | some nb => removeCurrency (Currency.save s { nb with is_base_currency := true }) c.pk
    | none => removeCurrency s c.pk
  else removeCurrency s c.pk

/-- An external currency mutation.  A delete re-reads the stored row by
primary key (deleting an unknown key is a no-op). -/
inductive CurrencyOp where
  | save (c : Currency)
  | del (pk : ℕ)

/-- Apply one currency mutation. -/
def applyCurrencyOp (s : CurrencyStore) : CurrencyOp → CurrencyStore
  | .save c => Currency.save s c
  | .del pk =>
    match lookupCurrency s pk with
    | some c => Currency.delete s c
    | none => s

/-- Run a sequence of currency mutations from the empty table. -/
def runCurrencyOps (ops : List CurrencyOp) : CurrencyStore :=
  ops.foldl applyCurrencyOp []

/-- Number of rows marked as base currency. -/
def countBase (s : CurrencyStore) : ℕ :=
  (s.filter (fun c => c.is_base_currency)).length
structure ConversionGraph where
  edges : List (ℕ × ℕ)
  weights : List ((ℕ × ℕ) × ℚ)
  deriving Repr

/-- Python dict assignment: the newest binding shadows older ones. -/
def dictInsert (m : List ((ℕ × ℕ) × ℚ)) (k : ℕ × ℕ) (v : ℚ) : List ((ℕ × ℕ) × ℚ) :=
  (k, v) :: m

/-- Python dict lookup. -/
def dictLookup (m : List ((ℕ × ℕ) × ℚ)) (k : ℕ × ℕ) : Option ℚ :=
  (m.find? (fun p => p.1 = k)).map (·.2)

/-- Adjacency: the neighbors appended for a node, in append order. -/
def neighbors (g : ConversionGraph) (x : ℕ) : List ℕ :=
  (g.edges.filter (fun e => e.1 = x)).map (·.2)

/-- Edge weight as the search reads it (`conversion_factor_lookup`). -/
def wOf (g : ConversionGraph) (x y : ℕ) : ℚ :=
  (dictLookup g.weights (x, y)).getD 0

/-- Ordered pairs having at least one stored row, in order of first
occurrence (Step 1 of the builder, the group-by). -/
def ratePairs : RateStore → List (ℕ × ℕ)
  | [] => []
  | r :: s =>
    (r.from_currency, r.to_currency) ::
      (ratePairs s).filter (fun p => p ≠ (r.from_currency, r.to_currency))

/-- The stored row with the maximum date for an ordered pair (Step 2 of
the builder; dates are unique per pair by the uniqueness constraint). -/
def latestRate : RateStore → ℕ → ℕ → Option ConversionFactor
  | [], _, _ => none
  | r :: s, a, b =>
    let rest := latestRate s a b
    if r.from_currency = a ∧ r.to_currency = b then
      match rest with
      | none => some r
      | some r2 => if r2.date < r.date then some r else some r2
    else rest

/-- One builder iteration: fetch the pair's latest row, append the
forward edge with its factor, then the reverse edge with the exact
reciprocal — a zero factor raises `DivisionByZero` (`Except.error`). -/
def buildStep (s : RateStore) (g : ConversionGraph) (p : ℕ × ℕ) : Except Unit ConversionGraph :=
  match latestRate s p.1 p.2 with
  | none => Except.ok g
  | some cf =>
    let g1 : ConversionGraph :=
      ⟨g.edges ++ [(cf.from_currency, cf.to_currency)],
        dictInsert g.weights (cf.from_currency, cf.to_currency) cf.factor⟩
    if cf.factor = 0 then Except.error ()
    else Except.ok
      ⟨g1.edges ++ [(cf.to_currency, cf.from_currency)],
        dictInsert g1.weights (cf.to_currency, cf.from_currency) (1 / cf.factor)⟩

/-- Build the conversion graph from the store (Steps 1–2 and the edge
materialization loop of `convert_to`). -/
def buildGraph (s : RateStore) : Except Unit ConversionGraph :=
  (ratePairs s).foldlM (buildStep s) ⟨[], []⟩

/-- A queue entry of the breadth-first search: `(current, path, factor)`. -/
structure BfsEntry where
  node : ℕ
  path : List ℕ
  factor : ℚ

/-- The search loop: dequeue; return on target; otherwise mark visited
and enqueue the unvisited neighbors with extended paths and composed
factors.  Fuel bounds the number of iterations; `none` marks exhaustion
(`bfsFuel` below always suffices, see the C9 theorem). -/
def bfsAux (g : ConversionGraph) (target : ℕ) :
    Nat → List BfsEntry → List ℕ → Option (Option (List ℕ × ℚ))
  | 0, _, _ => none
  | _ + 1, [], _ => some none
  | fuel + 1, e :: queue, visited =>
    if e.node = target then some (some (e.path, e.factor))
    else
      let visited' := e.node :: visited
      let newEntries := ((neighbors g e.node).filter (fun y => ¬ y ∈ visited')).map
        (fun y => ⟨y, e.path ++ [y], e.factor * wOf g e.node y⟩)
      bfsAux g target fuel (queue ++ newEntries) visited'

/-- All nodes a search path can visit: the source plus edge targets. -/
def searchNodes (g : ConversionGraph) (source : ℕ) : List ℕ :=
  (source :: g.edges.map (·.2)).dedup

/-- Fuel sufficient for the search to run to completion. -/
def bfsFuel (g : ConversionGraph) (source : ℕ) : Nat :=
  (g.edges.length + 1) ^ (searchNodes g source).length + 1

/-- The whole search as `convert_to` runs it. -/
def bfsSearch (g : ConversionGraph) (source target : ℕ) : Option (Option (List ℕ × ℚ)) :=
  bfsAux g target (bfsFuel g source) [⟨source, [source], 1⟩] []

/-- The `to_currency` argument: a `Currency` object or a code string. -/
inductive TargetRef where
  | obj (pk : ℕ)
  | code (c : String)

/-- Resolve the target as `convert_to` does: an object is taken as-is; a
code is looked up, `DoesNotExist` giving `none`. -/
def resolveTarget (cs : CurrencyStore) : TargetRef → Option ℕ
  | .obj pk => some pk
  | .code c => (findByCode cs c).map (·.pk)

/-- The `(path, factor, result_amount)` triple: `(none, amount)` models
`(None, None, amount)`. -/
abbrev ConvertResult := Option (List ℕ × ℚ) × ℚ

/-- `Currency.convert_to`: resolve the target (unknown code → sentinel),
build the graph (zero-factor rate → division error), run the search
(target found → `(path, factor, amount * factor)`; queue exhausted →
sentinel). -/
def convert_to (cs : CurrencyStore) (rs : RateStore) (source : ℕ) (target : TargetRef)
    (amount : ℚ) : Except Unit ConvertResult :=
  match resolveTarget cs target with
  | none => Except.ok (none, amount)
  | some tpk =>
    match buildGraph rs with
    | Except.error e => Except.error e
    | Except.ok g =>
      match bfsSearch g source tpk with
      | none => Except.error ()
      | some none => Except.ok (none, amount)
      | some (some (p, f)) => Except.ok (some (p, f), amount * f)

/-- A walk in the graph: consecutive nodes joined by edges. -/
def isWalk (g : ConversionGraph) : List ℕ → Prop :=
  List.Chain' (fun x y => (x, y) ∈ g.edges)

/-- Product of the edge weights along a node list. -/
def pathWeight (g : ConversionGraph) : List ℕ → ℚ
  | [] => 1
  | [_] => 1
  | x :: y :: rest => wOf g x y * pathWeight g (y :: rest)

/-- A walk from `s` to `t`. -/
def isWalkFromTo (g : ConversionGraph) (p : List ℕ) (s t : ℕ) : Prop :=
  isWalk g p ∧ p.head? = some s ∧ p.getLast? = some t
structure EntryOK (g : ConversionGraph) (source : ℕ) (visited : List ℕ)
    (e : BfsEntry) : Prop where
  head : e.path.head? = some source
  last : e.path.getLast? = some e.node
  walk : isWalk g e.path
  factor : e.factor = pathWeight g e.path
  nodup : e.path.Nodup
  dropLast_visited : ∀ v ∈ e.path.dropLast, v ∈ visited
  subset : ∀ v ∈ e.path, v ∈ source :: g.edges.map Prod.snd

/-- Invariant of the whole search state: every entry is well-formed,
path lengths are nondecreasing along the queue and span at most two
consecutive values. -/
def QueueOK (g : ConversionGraph) (source : ℕ) (queue : List BfsEntry)
    (visited : List ℕ) : Prop :=
  (∀ e ∈ queue, EntryOK g source visited e) ∧
  List.Pairwise (fun e₁ e₂ => e₁.path.length ≤ e₂.path.length) queue ∧
  (∀ e₁ ∈ queue, ∀ e₂ ∈ queue, e₁.path.length ≤ e₂.path.length + 1)

/-- Tracking invariant for a fixed competitor walk `q`: some queue entry
sits on `q` at an index at least as far along as its own level, and the
rest of `q` beyond that index is unvisited. -/
def CompOK (q : List ℕ) (queue : List BfsEntry) (visited : List ℕ) : Prop :=
  ∃ i : ℕ, ∃ hi : i < q.length,
    (∃ e ∈ queue, e.node = q.get ⟨i, hi⟩ ∧ e.path.length ≤ i + 1) ∧
    ∀ j, ∀ hj : j < q.length, i < j → q.get ⟨j, hj⟩ ∉ visited

/-- The next-state queue after dequeuing a non-target entry. -/
def stepQueue (g : ConversionGraph) (e : BfsEntry) (queue : List BfsEntry)
    (visited : List ℕ) : List BfsEntry :=
  queue ++ ((neighbors g e.node).filter (fun y => ¬ y ∈ e.node :: visited)).map
    (fun y => ⟨y, e.path ++ [y], e.factor * wOf g e.node y⟩)
def bfsPotential (g : ConversionGraph) (source : ℕ) (queue : List BfsEntry) : ℕ :=
  (queue.map (fun e =>
    (g.edges.length + 1) ^ ((searchNodes g source).length - e.path.length))).sum

theorem key_mk (a b d : ℕ) (f : ℚ) :
    (ConversionFactor.mk a b d f).key = (a, b, d) := rfl

theorem roundHalfEven_zero : roundHalfEven 0 = 0 := by
  unfold roundHalfEven
  norm_num

theorem quant4_zero : quant4 0 = 0 := by
  unfold quant4
  rw [zero_mul, roundHalfEven_zero]
  norm_num

theorem quant4_rawReverse (f : ℚ) : quant4 (rawReverse f) = reverseStored f := by
  by_cases h : f = 0
  · simp [rawReverse, reverseStored, h, quant4_zero]
  · simp [rawReverse, reverseStored, h]

theorem lookupFactor_eraseRate_other {s : RateStore} {a b d a' b' d' : ℕ}
    (h : (a', b', d') ≠ (a, b, d)) :
    lookupFactor (eraseRate s a b d) a' b' d' = lookupFactor s a' b' d' := by
  induction s with
  | nil => rfl
  | cons x xs ih =>
    by_cases hx : x.key = (a, b, d)
    · have hx' : ¬x.key = (a', b', d') := by rw [hx]; exact fun hc => h hc.symm
      simp only [eraseRate, if_pos hx, lookupFactor, if_neg hx']
    · by_cases hx' : x.key = (a', b', d')
      · simp only [eraseRate, if_neg hx, lookupFactor, if_pos hx']
      · simp only [eraseRate, if_neg hx, lookupFactor, if_neg hx']
        exact ih

theorem lookupFactor_eq_none_of_forall {s : RateStore} {a b d : ℕ}
    (h : ∀ r ∈ s, r.key ≠ (a, b, d)) : lookupFactor s a b d = none := by
  induction s with
  | nil => rfl
  | cons x xs ih =>
    simp only [lookupFactor, if_neg (h x (List.mem_cons_self x xs))]
    exact ih fun r hr => h r (List.mem_cons_of_mem x hr)

theorem lookupFactor_eraseRate_self {s : RateStore} (hWF : WFStore s) (a b d : ℕ) :
    lookupFactor (eraseRate s a b d) a b d = none := by
  induction s with
  | nil => rfl
  | cons x xs ih =>
    rw [WFStore, List.pairwise_cons] at hWF
    by_cases hx : x.key = (a, b, d)
    · simp only [eraseRate, if_pos hx]
      refine lookupFactor_eq_none_of_forall fun r hr => ?_
      rw [← hx]
      exact fun hc => hWF.1 r hr hc.symm
    · simp only [eraseRate, if_neg hx, lookupFactor, if_neg hx]
      exact ih hWF.2

theorem lookupFactor_upsertRate_same (s : RateStore) (a b d : ℕ) (f : ℚ) :
    lookupFactor (upsertRate s a b d f) a b d = some (quant4 f) := by
  induction s with
  | nil => simp [upsertRate, lookupFactor, key_mk]
  | cons x xs ih =>
    by_cases hx : x.key = (a, b, d)
    · have : ({ x with factor := quant4 f } : ConversionFactor).key = (a, b, d) := hx
      simp only [upsertRate, if_pos hx, lookupFactor, if_pos this]
    · simp only [upsertRate, if_neg hx, lookupFactor, if_neg hx]
      exact ih

theorem lookupFactor_upsertRate_other {s : RateStore} {a b d a' b' d' : ℕ} {f : ℚ}
    (h : (a', b', d') ≠ (a, b, d)) :
    lookupFactor (upsertRate s a b d f) a' b' d' = lookupFactor s a' b' d' := by
  induction s with
  | nil =>
    have : ¬(ConversionFactor.mk a b d (quant4 f)).key = (a', b', d') := by
      rw [key_mk]; exact fun hc => h hc.symm
    simp [upsertRate, lookupFactor, this]
  | cons x xs ih =>
    by_cases hx : x.key = (a, b, d)
    · have hx' : ¬({ x with factor := quant4 f } : ConversionFactor).key = (a', b', d') := by
        show ¬x.key = (a', b', d')
        rw [hx]; exact fun hc => h hc.symm
      have hx'' : ¬x.key = (a', b', d') := hx'
      simp only [upsertRate, if_pos hx, lookupFactor, if_neg hx', if_neg hx'']
    · by_cases hx' : x.key = (a', b', d')
      · simp only [upsertRate, if_neg hx, lookupFactor, if_pos hx']
      · simp only [upsertRate, if_neg hx, lookupFactor, if_neg hx']
        exact ih

theorem mem_upsertRate {s : RateStore} {a b d : ℕ} {f : ℚ} {r : ConversionFactor}
    (hWF : WFStore s) :
    r ∈ upsertRate s a b d f →
      r = ⟨a, b, d, quant4 f⟩ ∨ (r ∈ s ∧ r.key ≠ (a, b, d)) := by
  induction s with
  | nil =>
    intro hr
    left
    simpa [upsertRate] using hr
  | cons x xs ih =>
    rw [WFStore, List.pairwise_cons] at hWF
    intro hr
    by_cases hx : x.key = (a, b, d)
    · rw [upsertRate, if_pos hx] at hr
      rcases List.mem_cons.mp hr with rfl | hxs
      · left
        obtain ⟨ha, hb, hd⟩ : x.from_currency = a ∧ x.to_currency = b ∧ x.date = d := by
          simpa [ConversionFactor.key, Prod.ext_iff] using hx
        simp [ha, hb, hd]
      · right
        refine ⟨List.mem_cons_of_mem _ hxs, ?_⟩
        rw [← hx]
        exact fun hc => hWF.1 r hxs hc.symm
    · rw [upsertRate, if_neg hx] at hr
      rcases List.mem_cons.mp hr with rfl | hxs
      · right
        exact ⟨List.mem_cons_self _ _, hx⟩
      · rcases ih hWF.2 hxs with h1 | ⟨h2, h3⟩
        · left; exact h1
        · right; exact ⟨List.mem_cons_of_mem _ h2, h3⟩

theorem mem_eraseRate {s : RateStore} {a b d : ℕ} {r : ConversionFactor} :
    r ∈ eraseRate s a b d → r ∈ s := by
  induction s with
  | nil => intro hr; cases hr
  | cons x xs ih =>
    intro hr
    by_cases hx : x.key = (a, b, d)
    · rw [eraseRate, if_pos hx] at hr
      exact List.mem_cons_of_mem _ hr
    · rw [eraseRate, if_neg hx] at hr
      rcases List.mem_cons.mp hr with rfl | hxs
      · exact List.mem_cons_self _ _
      · exact List.mem_cons_of_mem _ (ih hxs)

theorem WFStore_eraseRate {s : RateStore} (hWF : WFStore s) (a b d : ℕ) :
    WFStore (eraseRate s a b d) := by
  induction s with
  | nil => exact hWF
  | cons x xs ih =>
    rw [WFStore, List.pairwise_cons] at hWF
    by_cases hx : x.key = (a, b, d)
    · rw [eraseRate, if_pos hx]
      exact hWF.2
    · rw [eraseRate, if_neg hx]
      rw [WFStore, List.pairwise_cons]
      exact ⟨fun r hr => hWF.1 r (mem_eraseRate hr), ih hWF.2⟩

theorem WFStore_upsertRate {s : RateStore} (hWF : WFStore s) (a b d : ℕ) (f : ℚ) :
    WFStore (upsertRate s a b d f) := by
  induction s with
  | nil => simp [upsertRate, WFStore]
  | cons x xs ih =>
    rw [WFStore, List.pairwise_cons] at hWF
    by_cases hx : x.key = (a, b, d)
    · rw [upsertRate, if_pos hx]
      rw [WFStore, List.pairwise_cons]
      exact ⟨fun r hr => hWF.1 r hr, hWF.2⟩
    · rw [upsertRate, if_neg hx]
      rw [WFStore, List.pairwise_cons]
      refine ⟨fun r hr => ?_, ih hWF.2⟩
      rcases mem_upsertRate hWF.2 hr with rfl | ⟨h2, _⟩
      · rw [key_mk]; exact fun hc => hx hc
      · exact hWF.1 r h2

theorem upsertRate_no_write {s : RateStore} {a b d : ℕ} {f : ℚ} (hWF : WFStore s)
    (h : lookupFactor s a b d = some (quant4 f)) : upsertRate s a b d f = s := by
  induction s with
  | nil => cases h
  | cons x xs ih =>
    rw [WFStore, List.pairwise_cons] at hWF
    by_cases hx : x.key = (a, b, d)
    · rw [lookupFactor, if_pos hx] at h
      have hfac : x.factor = quant4 f := Option.some.inj h
      have hxeq : ({ x with factor := quant4 f } : ConversionFactor) = x := by
        cases x
        simp_all
      rw [upsertRate, if_pos hx, hxeq]
    · rw [lookupFactor, if_neg hx] at h
      rw [upsertRate, if_neg hx, ih hWF.2 h]

theorem eraseRate_of_lookup_none {s : RateStore} {a b d : ℕ}
    (h : lookupFactor s a b d = none) : eraseRate s a b d = s := by
  induction s with
  | nil => rfl
  | cons x xs ih =>
    by_cases hx : x.key = (a, b, d)
    · rw [lookupFactor, if_pos hx] at h
      cases h
    · rw [lookupFactor, if_neg hx] at h
      rw [eraseRate, if_neg hx, ih h]

theorem quant4_of_repr4 {f : ℚ} (h : Repr4 f) : quant4 f = f := by
  have ht : ((f * 10000).num : ℚ) = f * 10000 := by
    conv_rhs => rw [← Rat.num_div_den (f * 10000)]
    rw [Repr4] at h
    rw [h]
    simp
  have hfloor : ⌊f * 10000⌋ = (f * 10000).num := by
    have h2 := Int.floor_intCast (α := ℚ) (f * 10000).num
    rwa [ht] at h2
  have hrhe : roundHalfEven (f * 10000) = (f * 10000).num := by
    unfold roundHalfEven
    rw [hfloor]
    simp only [ht, sub_self]
    norm_num
  unfold quant4
  rw [hrhe, ht]
  field_simp

theorem rawReverse_rawReverse (f : ℚ) : rawReverse (rawReverse f) = f := by
  by_cases h : f = 0
  · simp [rawReverse, h]
  · have h1 : (1 : ℚ) / f ≠ 0 := one_div_ne_zero h
    simp only [rawReverse, if_neg h, if_neg h1, one_div_one_div]

theorem key_ne_swap {a b d : ℕ} (h : a ≠ b) :
    ((b, a, d) : ℕ × ℕ × ℕ) ≠ (a, b, d) := by
  simp only [ne_eq, Prod.mk.injEq, not_and]
  intro hba
  exact absurd hba (Ne.symm h)

/-- Full trace of a rate save with distinct currencies: the reverse-rate
maintainer either finds the reverse row already holding the target
reciprocal factor (and writes nothing), or upserts it once; the nested
`post_save` on the reverse row then finds the original row holding
exactly the quantized reciprocal of the reverse instance's raw factor
and stops.  In particular the cascade always terminates. -/
theorem saveRate_eq_of_ne {a b : ℕ} (h : a ≠ b) (s : RateStore) (d : ℕ) (f : ℚ) :
    saveRate s a b d f =
      some (if lookupFactor s b a d = some (reverseStored f)
            then upsertRate s a b d f
            else upsertRate (upsertRate s a b d f) b a d (rawReverse f)) := by
  unfold saveRate
  rw [create_or_update_reverse_conversion_rate]
  simp only
  rw [lookupFactor_upsertRate_other (key_ne_swap h), quant4_rawReverse]
  by_cases hc : lookupFactor s b a d = some (reverseStored f)
  · rw [if_pos hc, if_pos hc]
  · rw [if_neg hc, if_neg hc]
    rw [create_or_update_reverse_conversion_rate]
    simp only [rawReverse_rawReverse]
    rw [lookupFactor_upsertRate_other (key_ne_swap (Ne.symm h)),
      lookupFactor_upsertRate_same]
    rw [if_pos rfl]

/-- Full trace of a rate delete: the row is removed; the `post_delete`
handler removes the reverse row if present; the handler fired by that
second removal finds the original key absent and stops. -/
theorem deleteRate_eq {s : RateStore} (hWF : WFStore s) (a b d : ℕ) :
    deleteRate s a b d = eraseRate (eraseRate s a b d) b a d := by
  unfold deleteRate
  rw [delete_reverse_conversion_rate]
  by_cases h1 : (lookupFactor (eraseRate s a b d) b a d).isSome
  · rw [dif_pos h1]
    have hne : ((a, b, d) : ℕ × ℕ × ℕ) ≠ (b, a, d) := by
      intro hc
      simp only [Prod.mk.injEq] at hc
      obtain ⟨hab, hba, -⟩ := hc
      subst hab
      rw [lookupFactor_eraseRate_self hWF] at h1
      cases h1
    have hnone : lookupFactor (eraseRate (eraseRate s a b d) b a d) a b d = none := by
      rw [lookupFactor_eraseRate_other hne, lookupFactor_eraseRate_self hWF]
    rw [delete_reverse_conversion_rate, dif_neg (by simp [hnone])]
  · rw [dif_neg h1]
    rw [Option.not_isSome_iff_eq_none] at h1
    rw [eraseRate_of_lookup_none h1]

/-!
## Mutation sequences and the reciprocal invariant
-/

theorem ReciprocalInv_nil : ReciprocalInv [] := by
  intro r hr
  cases hr

theorem lookupFactor_of_mem {s : RateStore} {r : ConversionFactor} {a b d : ℕ}
    (hWF : WFStore s) (hr : r ∈ s) (hk : r.key = (a, b, d)) :
    lookupFactor s a b d = some r.factor := by
  induction s with
  | nil => cases hr
  | cons x xs ih =>
    rw [WFStore, List.pairwise_cons] at hWF
    by_cases hx : x.key = (a, b, d)
    · rw [lookupFactor, if_pos hx]
      rcases List.mem_cons.mp hr with rfl | hxs
      · rfl
      · exact absurd (hx.trans hk.symm) (hWF.1 r hxs)
    · rw [lookupFactor, if_neg hx]
      rcases List.mem_cons.mp hr with rfl | hxs
      · exact absurd hk hx
      · exact ih hWF.2 hxs

/-- Saving preserves well-formedness and the maintained invariant. -/
theorem ReciprocalInv_saveRate {s s' : RateStore} {a b d : ℕ} {f : ℚ}
    (hWF : WFStore s) (hInv : ReciprocalInv s) (hab : a ≠ b) (hf : Repr4 f)
    (h : saveRate s a b d f = some s') : WFStore s' ∧ ReciprocalInv s' := by
  rw [saveRate_eq_of_ne hab] at h
  have hq : quant4 f = f := quant4_of_repr4 hf
  by_cases hc : lookupFactor s b a d = some (reverseStored f)
  · rw [if_pos hc] at h
    injection h with h
    subst h
    refine ⟨WFStore_upsertRate hWF a b d f, ?_⟩
    intro r hr
    rcases mem_upsertRate hWF hr with rfl | ⟨hrs, hrk⟩
    · refine ⟨reverseStored f, ?_, Or.inl (by rw [hq])⟩
      rw [lookupFactor_upsertRate_other (key_ne_swap hab)]
      exact hc
    · by_cases hrev : ((r.to_currency, r.from_currency, r.date) : ℕ × ℕ × ℕ) = (a, b, d)
      · -- r is the reverse row (b, a, d); its reverse is the row just saved
        obtain ⟨h1, h2, h3⟩ : r.to_currency = a ∧ r.from_currency = b ∧ r.date = d := by
          simpa [Prod.ext_iff] using hrev
        have hrkey : r.key = (b, a, d) := by
          simp [ConversionFactor.key, h1, h2, h3]
        have hrfac : r.factor = reverseStored f := by
          have hl := lookupFactor_of_mem hWF hrs hrkey
          rw [hc] at hl
          exact (Option.some.inj hl).symm
        refine ⟨f, ?_, Or.inr hrfac⟩
        rw [h1, h2, h3, lookupFactor_upsertRate_same, hq]
      · obtain ⟨g, hg, hgor⟩ := hInv r hrs
        refine ⟨g, ?_, hgor⟩
        rw [lookupFactor_upsertRate_other hrev]
        exact hg
  · rw [if_neg hc] at h
    injection h with h
    subst h
    have hWF1 : WFStore (upsertRate s a b d f) := WFStore_upsertRate hWF a b d f
    refine ⟨WFStore_upsertRate hWF1 b a d (rawReverse f), ?_⟩
    intro r hr
    rcases mem_upsertRate hWF1 hr with rfl | ⟨hr1, hrk1⟩
    · -- r is the freshly written reverse row (b, a, d)
      refine ⟨f, ?_, Or.inr (by rw [quant4_rawReverse])⟩
      show lookupFactor (upsertRate (upsertRate s a b d f) b a d (rawReverse f)) a b d =
        some f
      rw [lookupFactor_upsertRate_other (key_ne_swap (Ne.symm hab)),
        lookupFactor_upsertRate_same, hq]
    · rcases mem_upsertRate hWF hr1 with rfl | ⟨hrs, hrk⟩
      · -- r is the original row (a, b, d)
        refine ⟨reverseStored f, ?_, Or.inl (by rw [hq])⟩
        show lookupFactor (upsertRate (upsertRate s a b d f) b a d (rawReverse f)) b a d =
          some (reverseStored f)
        rw [lookupFactor_upsertRate_same, quant4_rawReverse]
      · -- untouched row: both rewritten keys differ from its reverse key
        have hrev1 : ((r.to_currency, r.from_currency, r.date) : ℕ × ℕ × ℕ) ≠ (b, a, d) := by
          intro hc'
          obtain ⟨h1, h2, h3⟩ : r.to_currency = b ∧ r.from_currency = a ∧ r.date = d := by
            simpa [Prod.ext_iff] using hc'
          exact hrk (by simp [ConversionFactor.key, h1, h2, h3])
        have hrev2 : ((r.to_currency, r.from_currency, r.date) : ℕ × ℕ × ℕ) ≠ (a, b, d) := by
          intro hc'
          obtain ⟨h1, h2, h3⟩ : r.to_currency = a ∧ r.from_currency = b ∧ r.date = d := by
            simpa [Prod.ext_iff] using hc'
          exact hrk1 (by simp [ConversionFactor.key, h1, h2, h3])
        obtain ⟨g, hg, hgor⟩ := hInv r hrs
        refine ⟨g, ?_, hgor⟩
        rw [lookupFactor_upsertRate_other hrev1, lookupFactor_upsertRate_other hrev2]
        exact hg

theorem roundHalfEven_eq_of_lt_half {q : ℚ} {z : ℤ} (h1 : (z : ℚ) ≤ q)
    (h2 : q - z < 1/2) : roundHalfEven q = z := by
  have hfloor : ⌊q⌋ = z := by
    rw [Int.floor_eq_iff]
    constructor
    · exact h1
    · linarith
  unfold roundHalfEven
  rw [hfloor, if_pos h2]

theorem roundHalfEven_eq_of_gt_half {q : ℚ} {z : ℤ} (h1 : (z : ℚ) ≤ q)
    (h2 : 1/2 < q - z) (h3 : q < z + 1) : roundHalfEven q = z + 1 := by
  have hfloor : ⌊q⌋ = z := by
    rw [Int.floor_eq_iff]
    constructor
    · exact h1
    · linarith
  unfold roundHalfEven
  rw [hfloor, if_neg (by linarith), if_pos h2]

theorem quant4_eq_of_rhe {q : ℚ} {z : ℤ} (h : roundHalfEven (q * 10000) = z) :
    quant4 q = (z : ℚ) / 10000 := by
  unfold quant4
  rw [h]

theorem mem_eraseRate_key_ne {s : RateStore} {a b d : ℕ} {r : ConversionFactor}
    (hWF : WFStore s) (hr : r ∈ eraseRate s a b d) : r.key ≠ (a, b, d) := by
  induction s with
  | nil => cases hr
  | cons x xs ih =>
    rw [WFStore, List.pairwise_cons] at hWF
    by_cases hx : x.key = (a, b, d)
    · rw [eraseRate, if_pos hx] at hr
      rw [← hx]
      exact fun hc => hWF.1 r hr hc.symm
    · rw [eraseRate, if_neg hx] at hr
      rcases List.mem_cons.mp hr with rfl | hxs
      · exact hx
      · exact ih hWF.2 hxs

/-- Deleting preserves well-formedness and the maintained invariant. -/
theorem ReciprocalInv_deleteRate {s : RateStore} {a b d : ℕ}
    (hWF : WFStore s) (hInv : ReciprocalInv s) :
    WFStore (deleteRate s a b d) ∧ ReciprocalInv (deleteRate s a b d) := by
  rw [deleteRate_eq hWF]
  have hWF1 : WFStore (eraseRate s a b d) := WFStore_eraseRate hWF a b d
  refine ⟨WFStore_eraseRate hWF1 b a d, ?_⟩
  intro r hr
  have hk1 : r.key ≠ (b, a, d) := mem_eraseRate_key_ne hWF1 hr
  have hr1 : r ∈ eraseRate s a b d := mem_eraseRate hr
  have hk2 : r.key ≠ (a, b, d) := mem_eraseRate_key_ne hWF hr1
  have hrs : r ∈ s := mem_eraseRate hr1
  obtain ⟨g, hg, hgor⟩ := hInv r hrs
  have hrev1 : ((r.to_currency, r.from_currency, r.date) : ℕ × ℕ × ℕ) ≠ (b, a, d) := by
    intro hc
    obtain ⟨h1, h2, h3⟩ : r.to_currency = b ∧ r.from_currency = a ∧ r.date = d := by
      simpa [Prod.ext_iff] using hc
    exact hk2 (by simp [ConversionFactor.key, h1, h2, h3])
  have hrev2 : ((r.to_currency, r.from_currency, r.date) : ℕ × ℕ × ℕ) ≠ (a, b, d) := by
    intro hc
    obtain ⟨h1, h2, h3⟩ : r.to_currency = a ∧ r.from_currency = b ∧ r.date = d := by
      simpa [Prod.ext_iff] using hc
    exact hk1 (by simp [ConversionFactor.key, h1, h2, h3])
  refine ⟨g, ?_, hgor⟩
  rw [lookupFactor_eraseRate_other hrev1, lookupFactor_eraseRate_other hrev2]
  exact hg

/-- Any terminating run of well-formed mutations from the empty store
yields a well-formed store satisfying the maintained invariant. -/
theorem runRateOps_WF_inv (ops : List RateOp) (hops : ∀ op ∈ ops, WFRateOp op)
    {s : RateStore} (h : runRateOps ops = some s) : WFStore s ∧ ReciprocalInv s := by
  suffices haux : ∀ (ops' : List RateOp), (∀ op ∈ ops', WFRateOp op) →
      ∀ (s₀ : RateStore), WFStore s₀ → ReciprocalInv s₀ →
      ∀ s', ops'.foldlM applyRateOp s₀ = some s' → WFStore s' ∧ ReciprocalInv s' by
    exact haux ops hops [] (by simp [WFStore]) ReciprocalInv_nil s h
  intro ops'
  induction ops' with
  | nil =>
    intro _ s₀ hWF hInv s' h'
    simp only [List.foldlM_nil, Option.pure_def, Option.some.injEq] at h'
    subst h'
    exact ⟨hWF, hInv⟩
  | cons op rest ih =>
    intro hops' s₀ hWF hInv s' h'
    simp only [List.foldlM_cons] at h'
    cases hop : applyRateOp s₀ op with
    | none => rw [hop] at h'; cases h'
    | some s₁ =>
      rw [hop] at h'
      have hstep : WFStore s₁ ∧ ReciprocalInv s₁ := by
        cases op with
        | save a b d f =>
          have hwf := hops' _ (List.mem_cons_self _ _)
          obtain ⟨hab, hf⟩ := hwf
          exact ReciprocalInv_saveRate hWF hInv hab hf hop
        | del a b d =>
          simp only [applyRateOp, Option.some.injEq] at hop
          subst hop
          exact ReciprocalInv_deleteRate hWF hInv
      exact ih (fun op' hm => hops' op' (List.mem_cons_of_mem _ hm)) s₁ hstep.1 hstep.2 s' h'

theorem repr4_intCast (z : ℤ) : Repr4 (z : ℚ) := by
  rw [Repr4]
  have h : ((z : ℚ) * 10000) = ((z * 10000 : ℤ) : ℚ) := by push_cast; ring
  rw [h, Rat.den_intCast]

theorem repr4_one : Repr4 1 := by
  have h := repr4_intCast 1
  rwa [Int.cast_one] at h

theorem repr4_three : Repr4 3 := by
  have h := repr4_intCast 3
  rwa [show ((3 : ℤ) : ℚ) = 3 by norm_num] at h

theorem quant4_one : quant4 1 = 1 := quant4_of_repr4 repr4_one

theorem quant4_three : quant4 3 = 3 := quant4_of_repr4 repr4_three

theorem rawReverse_one : rawReverse 1 = 1 := by norm_num [rawReverse]

theorem rawReverse_three : rawReverse 3 = 1/3 := by norm_num [rawReverse]

theorem quant4_one_third : quant4 (1/3) = 3333/10000 := by
  have hrhe : roundHalfEven ((1/3 : ℚ) * 10000) = 3333 := by
    have h := roundHalfEven_eq_of_lt_half (q := (1/3 : ℚ) * 10000) (z := 3333)
      (by norm_num) (by norm_num)
    exact h
  rw [quant4_eq_of_rhe hrhe]
  norm_num

theorem reverseStored_3333 : reverseStored (3333/10000) = 30003/10000 := by
  rw [reverseStored, if_neg (by norm_num)]
  have hrhe : roundHalfEven ((1 / (3333/10000 : ℚ)) * 10000) = 30003 := by
    have h := roundHalfEven_eq_of_lt_half (q := (1 / (3333/10000 : ℚ)) * 10000) (z := 30003)
      (by norm_num) (by norm_num)
    exact h
  rw [quant4_eq_of_rhe hrhe]
  norm_num

/-- C1, amended.  After any terminating sequence of well-formed rate
mutations (distinct currencies, 4-fractional-digit factors) starting
from the empty store, every stored rate row `(A, B, date, f)` has a
same-date reverse row `(B, A, date, g)` such that `g` is the quantized
reciprocal of `f` (with reciprocal `0` for `0`) or `f` is the quantized
reciprocal of `g`.  (The original per-row form — `g` always equals the
quantized reciprocal of `f` — fails because quantized reciprocation is
not an involution; see `C1_claim_counterexample`.) -/
theorem C1_reciprocal_invariant (ops : List RateOp)
    (hops : ∀ op ∈ ops, WFRateOp op) (s : RateStore)
    (h : runRateOps ops = some s) : ReciprocalInv s :=
  (runRateOps_WF_inv ops hops h).2

/-- C1, counterexample to the claim as stated: after the single
well-formed mutation saving the rate `(0, 1, date 5, factor 3)`, the
store holds the reverse row `(1, 0, 5, 0.3333)`, but the row `(0, 1, 5)`
holds factor `3`, which is neither the quantized reciprocal of `0.3333`
(that is `3.0003`) nor within one quantization step (`0.0001`) of the
exact reciprocal `1/0.3333`. -/
theorem C1_claim_counterexample :
    runRateOps [RateOp.save 0 1 5 3] =
      some [⟨0, 1, 5, 3⟩, ⟨1, 0, 5, 3333/10000⟩] ∧
    ¬ ClaimReciprocalInv [⟨0, 1, 5, 3⟩, ⟨1, 0, 5, 3333/10000⟩] ∧
    (∀ g : ℚ, lookupFactor [⟨0, 1, 5, 3⟩, ⟨1, 0, 5, 3333/10000⟩] 0 1 5 = some g →
      1/10000 < |g - 1 / (3333/10000)|) := by
  refine ⟨?_, ?_, ?_⟩
  · show Option.bind (saveRate [] 0 1 5 3) (fun s => [].foldlM applyRateOp s) = _
    rw [saveRate_eq_of_ne (by decide) [] 5 3]
    rw [if_neg (by rw [show lookupFactor [] 1 0 5 = none from rfl]; simp)]
    rw [show upsertRate [] 0 1 5 3 = [⟨0, 1, 5, quant4 3⟩] from rfl]
    rw [quant4_three]
    rw [show upsertRate [⟨0, 1, 5, 3⟩] 1 0 5 (rawReverse 3) =
      [⟨0, 1, 5, 3⟩, ⟨1, 0, 5, quant4 (rawReverse 3)⟩] from (by
        rw [upsertRate, if_neg (by decide)]
        rfl)]
    rw [quant4_rawReverse, show reverseStored 3 = 3333/10000 from (by
      rw [reverseStored, if_neg (by norm_num)]
      rw [show (1 : ℚ) / 3 = 1/3 from rfl, quant4_one_third])]
    rfl
  · intro hclaim
    have hmem : (⟨1, 0, 5, 3333/10000⟩ : ConversionFactor) ∈
        ([⟨0, 1, 5, 3⟩, ⟨1, 0, 5, 3333/10000⟩] : RateStore) := by
      simp
    have h := hclaim _ hmem
    rw [reverseStored_3333] at h
    have hl : lookupFactor [⟨0, 1, 5, 3⟩, ⟨1, 0, 5, 3333/10000⟩] 0 1 5 = some 3 := by
      rw [lookupFactor, if_pos (by decide)]
    rw [show (⟨1, 0, 5, 3333/10000⟩ : ConversionFactor).to_currency = 0 from rfl,
      show (⟨1, 0, 5, 3333/10000⟩ : ConversionFactor).from_currency = 1 from rfl,
      show (⟨1, 0, 5, 3333/10000⟩ : ConversionFactor).date = 5 from rfl, hl] at h
    have := Option.some.inj h
    norm_num at this
  · intro g hg
    have hl : lookupFactor [⟨0, 1, 5, 3⟩, ⟨1, 0, 5, 3333/10000⟩] 0 1 5 = some 3 := by
      rw [lookupFactor, if_pos (by decide)]
    rw [hl] at hg
    have hg3 : g = 3 := (Option.some.inj hg).symm
    subst hg3
    rw [show |(3 : ℚ) - 1 / (3333/10000)| = 1/3333 by rw [abs_of_nonpos] <;> norm_num]
    norm_num

theorem reverseStored_one : reverseStored 1 = 1 := by
  rw [reverseStored, if_neg one_ne_zero, show (1 : ℚ)/1 = 1 from by norm_num, quant4_one]

/-- Witness for C1: the single save `(0, 1, date 5, factor 1)` is
well-formed, terminates, and its result satisfies the invariant. -/
theorem C1_reciprocal_invariant_witness :
    (∀ op ∈ [RateOp.save 0 1 5 1], WFRateOp op) ∧
    ReciprocalInv [⟨0, 1, 5, 1⟩, ⟨1, 0, 5, 1⟩] := by
  have hops : ∀ op ∈ [RateOp.save 0 1 5 1], WFRateOp op := by
    intro op hop
    rw [List.mem_singleton] at hop
    subst hop
    exact ⟨by decide, repr4_one⟩
  refine ⟨hops, C1_reciprocal_invariant [RateOp.save 0 1 5 1] hops _ ?_⟩
  show Option.bind (saveRate [] 0 1 5 1) (fun s => [].foldlM applyRateOp s) = _
  rw [saveRate_eq_of_ne (by decide) [] 5 1]
  rw [if_neg (by rw [show lookupFactor [] 1 0 5 = none from rfl]; simp)]
  rw [show upsertRate [] 0 1 5 1 = [⟨0, 1, 5, quant4 1⟩] from rfl, quant4_one]
  rw [show upsertRate [⟨0, 1, 5, 1⟩] 1 0 5 (rawReverse 1) =
    [⟨0, 1, 5, 1⟩, ⟨1, 0, 5, quant4 (rawReverse 1)⟩] from (by
      rw [upsertRate, if_neg (by decide)]
      rfl)]
  rw [quant4_rawReverse, reverseStored_one]
  rfl

/-- C5.  When the reverse row `(B, A, date)` already holds exactly the
target reciprocal factor and the original row holds the (quantized)
saved value, re-saving the rate performs no write at all: the store is
returned unchanged, so no second reciprocal row is created and the
existing reverse row keeps its identity and factor, and the handler
cascade stops immediately instead of re-triggering. -/
theorem C5_resave_idempotent (s : RateStore) (hWF : WFStore s) (a b d : ℕ) (f : ℚ)
    (horig : lookupFactor s a b d = some (quant4 f))
    (hrev : lookupFactor s b a d = some (reverseStored f)) :
    saveRate s a b d f = some s := by
  unfold saveRate
  rw [upsertRate_no_write hWF horig]
  rw [create_or_update_reverse_conversion_rate]
  simp only [quant4_rawReverse]
  rw [if_pos hrev]

/-- Witness for C5 at a concrete store. -/
theorem C5_resave_idempotent_witness :
    saveRate [⟨0, 1, 5, 1⟩, ⟨1, 0, 5, 1⟩] 0 1 5 1 =
      some [⟨0, 1, 5, 1⟩, ⟨1, 0, 5, 1⟩] := by
  refine C5_resave_idempotent _ ?_ 0 1 5 1 ?_ ?_
  · rw [WFStore]
    refine List.Pairwise.cons ?_ (List.Pairwise.cons (by intro r hr; cases hr) List.Pairwise.nil)
    intro r hr
    rw [List.mem_singleton] at hr
    subst hr
    decide
  · rw [lookupFactor, if_pos (by decide), quant4_one]
  · rw [lookupFactor, if_neg (by decide), lookupFactor, if_pos (by decide), reverseStored_one]

theorem length_eraseRate_ge (s : RateStore) (a b d : ℕ) :
    s.length ≤ (eraseRate s a b d).length + 1 := by
  induction s with
  | nil => simp
  | cons x xs ih =>
    by_cases hx : x.key = (a, b, d)
    · rw [eraseRate, if_pos hx]
      simp
    · rw [eraseRate, if_neg hx]
      simpa using Nat.succ_le_succ ih

/-- C10.  Deleting the rate row `(A, B, date)` deletes, in addition, at
most the reverse row `(B, A, date)`: the result is exactly the store
with those two keys removed, the handler fired by the reverse deletion
finds `(A, B, date)` already absent and stops, rows under any other key
are untouched, and at most two rows disappear in total. -/
theorem C10_delete_cascade (s : RateStore) (hWF : WFStore s) (a b d : ℕ) :
    deleteRate s a b d = eraseRate (eraseRate s a b d) b a d ∧
    (∀ a' b' d' : ℕ, (a', b', d') ≠ (a, b, d) → (a', b', d') ≠ (b, a, d) →
      lookupFactor (deleteRate s a b d) a' b' d' = lookupFactor s a' b' d') ∧
    s.length ≤ (deleteRate s a b d).length + 2 := by
  have heq := deleteRate_eq hWF a b d
  refine ⟨heq, ?_, ?_⟩
  · intro a' b' d' h1 h2
    rw [heq, lookupFactor_eraseRate_other h2, lookupFactor_eraseRate_other h1]
  · rw [heq]
    calc s.length ≤ (eraseRate s a b d).length + 1 := length_eraseRate_ge s a b d
      _ ≤ ((eraseRate (eraseRate s a b d) b a d).length + 1) + 1 :=
          Nat.succ_le_succ (length_eraseRate_ge _ b a d)
      _ = (eraseRate (eraseRate s a b d) b a d).length + 2 := rfl

/-- Witness for C10 at a concrete store. -/
theorem C10_delete_cascade_witness :
    deleteRate [⟨0, 1, 5, 1⟩, ⟨1, 0, 5, 1⟩] 0 1 5 =
      eraseRate (eraseRate [⟨0, 1, 5, 1⟩, ⟨1, 0, 5, 1⟩] 0 1 5) 1 0 5 ∧
    lookupFactor (deleteRate [⟨0, 1, 5, 1⟩, ⟨1, 0, 5, 1⟩] 0 1 5) 2 3 5 =
      lookupFactor [⟨0, 1, 5, 1⟩, ⟨1, 0, 5, 1⟩] 2 3 5 ∧
    ([⟨0, 1, 5, 1⟩, ⟨1, 0, 5, 1⟩] : RateStore).length ≤
      (deleteRate [⟨0, 1, 5, 1⟩, ⟨1, 0, 5, 1⟩] 0 1 5).length + 2 := by
  have hWF : WFStore [⟨0, 1, 5, 1⟩, ⟨1, 0, 5, 1⟩] := by
    rw [WFStore]
    refine List.Pairwise.cons ?_ (List.Pairwise.cons (by intro r hr; cases hr) List.Pairwise.nil)
    intro r hr
    rw [List.mem_singleton] at hr
    subst hr
    decide
  obtain ⟨h1, h2, h3⟩ := C10_delete_cascade _ hWF 0 1 5
  exact ⟨h1, h2 2 3 5 (by decide) (by decide), h3⟩

/-!
## Currencies and the single-base-currency invariant
(`Currency.save` / `Currency.delete` in src/currencies/models.py)
-/

theorem countBase_nil : countBase [] = 0 := rfl

theorem countBase_cons (c : Currency) (s : CurrencyStore) :
    countBase (c :: s) = (if c.is_base_currency then 1 else 0) + countBase s := by
  by_cases hc : c.is_base_currency
  · simp [countBase, List.filter_cons, hc, Nat.add_comm]
  · simp [countBase, List.filter_cons, hc]

theorem countBase_eq_zero_of_forall {s : CurrencyStore}
    (h : ∀ c ∈ s, c.is_base_currency = false) : countBase s = 0 := by
  induction s with
  | nil => rfl
  | cons x xs ih =>
    rw [countBase_cons, h x (List.mem_cons_self x xs)]
    simpa using ih fun c hc => h c (List.mem_cons_of_mem x hc)

theorem countBase_demoteOthers_of_forall {s : CurrencyStore} {pk : ℕ}
    (h : ∀ c ∈ s, c.pk ≠ pk) : countBase (demoteOthers s pk) = 0 := by
  induction s with
  | nil => rfl
  | cons x xs ih =>
    rw [demoteOthers, if_neg (h x (List.mem_cons_self x xs)), countBase_cons]
    simp only [Bool.false_eq_true, if_false]
    simpa using ih fun c hc => h c (List.mem_cons_of_mem x hc)

/-- Saving a base-marked currency leaves exactly one base row. -/
theorem countBase_save_base {s : CurrencyStore} {c : Currency}
    (hWF : WFCurrencies s) (hc : c.is_base_currency = true) :
    countBase (upsertCurrency (demoteOthers s c.pk) c) = 1 := by
  induction s with
  | nil => simp [demoteOthers, upsertCurrency, countBase_cons, hc, countBase_nil]
  | cons x xs ih =>
    rw [WFCurrencies, List.pairwise_cons] at hWF
    by_cases hx : x.pk = c.pk
    · rw [demoteOthers, if_pos hx, upsertCurrency, if_pos hx, countBase_cons, if_pos hc]
      have hzero : countBase (demoteOthers xs c.pk) = 0 :=
        countBase_demoteOthers_of_forall fun y hy he => hWF.1 y hy (by rw [he, hx])
      rw [hzero]
    · rw [demoteOthers, if_neg hx, upsertCurrency,
        if_neg (show ¬({ x with is_base_currency := false } : Currency).pk = c.pk from hx),
        countBase_cons]
      simpa using ih hWF.2

/-- Promoting a currency when no other base exists leaves exactly one. -/
theorem countBase_save_promote {s : CurrencyStore} {c : Currency}
    (hWF : WFCurrencies s) (hnob : ∀ x ∈ s, x.pk ≠ c.pk → x.is_base_currency = false) :
    countBase (upsertCurrency s { c with is_base_currency := true }) = 1 := by
  induction s with
  | nil => simp [upsertCurrency, countBase_cons, countBase_nil]
  | cons x xs ih =>
    rw [WFCurrencies, List.pairwise_cons] at hWF
    by_cases hx : x.pk = ({ c with is_base_currency := true } : Currency).pk
    · rw [upsertCurrency, if_pos hx, countBase_cons, if_pos rfl]
      have hzero : countBase xs = 0 := by
        refine countBase_eq_zero_of_forall fun y hy => ?_
        refine hnob y (List.mem_cons_of_mem x hy) ?_
        intro he
        exact hWF.1 y hy (by rw [he, ← hx])
      rw [hzero]
    · rw [upsertCurrency, if_neg hx, countBase_cons,
        hnob x (List.mem_cons_self x xs) hx]
      simp only [Bool.false_eq_true, if_false, Nat.zero_add]
      exact ih hWF.2 fun y hy hne => hnob y (List.mem_cons_of_mem x hy) hne

/-- Writing a non-base row whose stored predecessor (if any) is also
non-base does not change the number of base rows. -/
theorem countBase_upsert_nonbase {s : CurrencyStore} {c : Currency}
    (hc : c.is_base_currency = false)
    (hold : ∀ r ∈ s, r.pk = c.pk → r.is_base_currency = false) :
    countBase (upsertCurrency s c) = countBase s := by
  induction s with
  | nil => simp [upsertCurrency, countBase_cons, countBase_nil, hc]
  | cons x xs ih =>
    by_cases hx : x.pk = c.pk
    · rw [upsertCurrency, if_pos hx, countBase_cons, countBase_cons, hc,
        hold x (List.mem_cons_self x xs) hx]
    · rw [upsertCurrency, if_neg hx, countBase_cons, countBase_cons]
      rw [ih fun r hr he => hold r (List.mem_cons_of_mem x hr) he]

/-- Removing a row whose stored value (if any) is non-base does not
change the number of base rows. -/
theorem countBase_remove_nonbase {s : CurrencyStore} {pk : ℕ}
    (hold : ∀ r ∈ s, r.pk = pk → r.is_base_currency = false) :
    countBase (removeCurrency s pk) = countBase s := by
  induction s with
  | nil => rfl
  | cons x xs ih =>
    by_cases hx : x.pk = pk
    · rw [removeCurrency, if_pos hx, countBase_cons,
        hold x (List.mem_cons_self x xs) hx]
      simp
    · rw [removeCurrency, if_neg hx, countBase_cons, countBase_cons,
        ih fun r hr he => hold r (List.mem_cons_of_mem x hr) he]

theorem two_mem_le_length {α : Type} {l : List α} {a b : α}
    (ha : a ∈ l) (hb : b ∈ l) (hne : a ≠ b) : 2 ≤ l.length := by
  induction l with
  | nil => cases ha
  | cons x xs ih =>
    rcases List.mem_cons.mp ha with rfl | ha'
    · rcases List.mem_cons.mp hb with rfl | hb'
      · exact absurd rfl hne
      · have := List.length_pos_of_mem hb'
        simp only [List.length_cons]
        omega
    · have := List.length_pos_of_mem ha'
      simp only [List.length_cons]
      omega

/-- With exactly one base row, any two base rows coincide. -/
theorem base_unique {s : CurrencyStore} (hone : countBase s = 1) {u v : Currency}
    (hu : u ∈ s) (hv : v ∈ s) (hub : u.is_base_currency = true)
    (hvb : v.is_base_currency = true) : u = v := by
  by_contra hne
  have hu' : u ∈ s.filter (fun c => c.is_base_currency) := by
    rw [List.mem_filter]
    exact ⟨hu, hub⟩
  have hv' : v ∈ s.filter (fun c => c.is_base_currency) := by
    rw [List.mem_filter]
    exact ⟨hv, hvb⟩
  have h2 := two_mem_le_length hu' hv' hne
  rw [countBase] at hone
  omega

theorem mem_upsertCurrency {s : CurrencyStore} {c r : Currency} (hWF : WFCurrencies s) :
    r ∈ upsertCurrency s c → r = c ∨ (r ∈ s ∧ r.pk ≠ c.pk) := by
  induction s with
  | nil =>
    intro hr
    left
    simpa [upsertCurrency] using hr
  | cons x xs ih =>
    rw [WFCurrencies, List.pairwise_cons] at hWF
    intro hr
    by_cases hx : x.pk = c.pk
    · rw [upsertCurrency, if_pos hx] at hr
      rcases List.mem_cons.mp hr with rfl | hxs
      · left; rfl
      · right
        refine ⟨List.mem_cons_of_mem x hxs, ?_⟩
        rw [← hx]
        exact fun he => hWF.1 r hxs he.symm
    · rw [upsertCurrency, if_neg hx] at hr
      rcases List.mem_cons.mp hr with rfl | hxs
      · right; exact ⟨List.mem_cons_self _ _, hx⟩
      · rcases ih hWF.2 hxs with h1 | ⟨h2, h3⟩
        · left; exact h1
        · right; exact ⟨List.mem_cons_of_mem x h2, h3⟩

theorem mem_removeCurrency {s : CurrencyStore} {pk : ℕ} {r : Currency} :
    r ∈ removeCurrency s pk → r ∈ s := by
  induction s with
  | nil => intro hr; cases hr
  | cons x xs ih =>
    intro hr
    by_cases hx : x.pk = pk
    · rw [removeCurrency, if_pos hx] at hr
      exact List.mem_cons_of_mem x hr
    · rw [removeCurrency, if_neg hx] at hr
      rcases List.mem_cons.mp hr with rfl | hxs
      · exact List.mem_cons_self _ _
      · exact List.mem_cons_of_mem x (ih hxs)

theorem mem_demoteOthers_cases {s : CurrencyStore} {pk : ℕ} {r : Currency} :
    r ∈ demoteOthers s pk → r.pk = pk ∨ r.is_base_currency = false := by
  induction s with
  | nil => intro hr; cases hr
  | cons x xs ih =>
    intro hr
    rw [demoteOthers] at hr
    rcases List.mem_cons.mp hr with rfl | hxs
    · by_cases hx : x.pk = pk
      · left
        rw [if_pos hx]
        exact hx
      · right
        rw [if_neg hx]
    · exact ih hxs

theorem demote_pk (x : Currency) (pk : ℕ) :
    ((if x.pk = pk then x else { x with is_base_currency := false }) : Currency).pk = x.pk := by
  by_cases hx : x.pk = pk
  · rw [if_pos hx]
  · rw [if_neg hx]

theorem mem_demoteOthers_pk {s : CurrencyStore} {pk : ℕ} {r : Currency} :
    r ∈ demoteOthers s pk → ∃ x ∈ s, r.pk = x.pk := by
  induction s with
  | nil => intro hr; cases hr
  | cons x xs ih =>
    intro hr
    rw [demoteOthers] at hr
    rcases List.mem_cons.mp hr with rfl | hxs
    · exact ⟨x, List.mem_cons_self _ _, demote_pk x pk⟩
    · obtain ⟨y, hy, he⟩ := ih hxs
      exact ⟨y, List.mem_cons_of_mem x hy, he⟩

theorem WFCurrencies_demoteOthers {s : CurrencyStore} (hWF : WFCurrencies s) (pk : ℕ) :
    WFCurrencies (demoteOthers s pk) := by
  induction s with
  | nil => exact hWF
  | cons x xs ih =>
    rw [WFCurrencies, List.pairwise_cons] at hWF
    rw [demoteOthers, WFCurrencies, List.pairwise_cons]
    refine ⟨fun y hy => ?_, ih hWF.2⟩
    obtain ⟨z, hz, he⟩ := mem_demoteOthers_pk hy
    rw [demote_pk, he]
    exact hWF.1 z hz

theorem WFCurrencies_upsertCurrency {s : CurrencyStore} (hWF : WFCurrencies s)
    (c : Currency) : WFCurrencies (upsertCurrency s c) := by
  induction s with
  | nil =>
    rw [WFCurrencies]
    exact List.pairwise_singleton _ _
  | cons x xs ih =>
    rw [WFCurrencies, List.pairwise_cons] at hWF
    by_cases hx : x.pk = c.pk
    · rw [upsertCurrency, if_pos hx, WFCurrencies, List.pairwise_cons]
      refine ⟨fun y hy he => ?_, hWF.2⟩
      exact hWF.1 y hy (by rw [hx, he])
    · rw [upsertCurrency, if_neg hx, WFCurrencies, List.pairwise_cons]
      refine ⟨fun y hy => ?_, ih hWF.2⟩
      rcases mem_upsertCurrency hWF.2 hy with rfl | ⟨h2, _⟩
      · exact hx
      · exact hWF.1 y h2

theorem WFCurrencies_removeCurrency {s : CurrencyStore} (hWF : WFCurrencies s) (pk : ℕ) :
    WFCurrencies (removeCurrency s pk) := by
  induction s with
  | nil => exact hWF
  | cons x xs ih =>
    rw [WFCurrencies, List.pairwise_cons] at hWF
    by_cases hx : x.pk = pk
    · rw [removeCurrency, if_pos hx]
      exact hWF.2
    · rw [removeCurrency, if_neg hx, WFCurrencies, List.pairwise_cons]
      exact ⟨fun y hy => hWF.1 y (mem_removeCurrency hy), ih hWF.2⟩

theorem WFCurrencies_save {s : CurrencyStore} (hWF : WFCurrencies s) (c : Currency) :
    WFCurrencies (Currency.save s c) := by
  rw [Currency.save]
  by_cases h1 : c.is_base_currency
  · rw [if_pos h1]
    exact WFCurrencies_upsertCurrency (WFCurrencies_demoteOthers hWF c.pk) c
  · rw [if_neg h1]
    by_cases h2 : existsOtherBase s c.pk = false
    · rw [if_pos h2]
      exact WFCurrencies_upsertCurrency hWF _
    · rw [if_neg h2]
      exact WFCurrencies_upsertCurrency hWF c

theorem WFCurrencies_delete {s : CurrencyStore} (hWF : WFCurrencies s) (c : Currency) :
    WFCurrencies (Currency.delete s c) := by
  rw [Currency.delete]
  by_cases h1 : c.is_base_currency
  · rw [if_pos h1]
    cases hfo : firstOther s c.pk with
    | some nb => exact WFCurrencies_removeCurrency (WFCurrencies_save hWF _) c.pk
    | none => exact WFCurrencies_removeCurrency hWF c.pk
  · rw [if_neg h1]
    exact WFCurrencies_removeCurrency hWF c.pk

theorem lookupCurrency_mem {s : CurrencyStore} {pk : ℕ} {c : Currency}
    (h : lookupCurrency s pk = some c) : c ∈ s ∧ c.pk = pk := by
  induction s with
  | nil => cases h
  | cons x xs ih =>
    by_cases hx : x.pk = pk
    · rw [lookupCurrency, if_pos hx] at h
      injection h with h
      subst h
      exact ⟨List.mem_cons_self _ _, hx⟩
    · rw [lookupCurrency, if_neg hx] at h
      obtain ⟨h1, h2⟩ := ih h
      exact ⟨List.mem_cons_of_mem x h1, h2⟩

theorem firstOther_some {s : CurrencyStore} {pk : ℕ} {nb : Currency}
    (h : firstOther s pk = some nb) : nb ∈ s ∧ nb.pk ≠ pk := by
  refine ⟨List.mem_of_find?_eq_some h, ?_⟩
  have hp := List.find?_some h
  simpa using hp

theorem firstOther_none {s : CurrencyStore} {pk : ℕ}
    (h : firstOther s pk = none) : ∀ x ∈ s, x.pk = pk := by
  intro x hx
  have := List.find?_eq_none.mp h x hx
  simpa using this

theorem existsOtherBase_eq_false {s : CurrencyStore} {pk : ℕ}
    (h : existsOtherBase s pk = false) :
    ∀ c ∈ s, c.pk ≠ pk → c.is_base_currency = false := by
  intro c hc hne
  rcases Bool.eq_false_or_eq_true c.is_base_currency with hb | hb
  · exfalso
    have htrue : existsOtherBase s pk = true := by
      rw [existsOtherBase]
      refine List.any_eq_true.mpr ⟨c, hc, ?_⟩
      rw [Bool.and_eq_true]
      exact ⟨by simpa using hne, hb⟩
    rw [h] at htrue
    cases htrue
  · exact hb

theorem existsOtherBase_eq_true {s : CurrencyStore} {pk : ℕ}
    (h : existsOtherBase s pk = true) :
    ∃ c ∈ s, c.pk ≠ pk ∧ c.is_base_currency = true := by
  rw [existsOtherBase] at h
  obtain ⟨c, hc, hprop⟩ := List.any_eq_true.mp h
  rw [Bool.and_eq_true] at hprop
  exact ⟨c, hc, by simpa using hprop.1, hprop.2⟩

/-- Under primary-key uniqueness, two stored rows with the same key are
the same row. -/
theorem unique_mem_pk {s : CurrencyStore} (hWF : WFCurrencies s) {r u : Currency}
    (hr : r ∈ s) (hu : u ∈ s) (he : r.pk = u.pk) : r = u := by
  induction s with
  | nil => cases hr
  | cons x xs ih =>
    rw [WFCurrencies, List.pairwise_cons] at hWF
    rcases List.mem_cons.mp hr with rfl | hr'
    · rcases List.mem_cons.mp hu with rfl | hu'
      · rfl
      · exact absurd he (hWF.1 u hu')
    · rcases List.mem_cons.mp hu with rfl | hu'
      · exact absurd he.symm (hWF.1 r hr')
      · exact ih hWF.2 hr' hu'

/-- One save step preserves the single-base invariant. -/
theorem countBase_save {s : CurrencyStore} (hWF : WFCurrencies s)
    (hinv : s = [] ∨ countBase s = 1) (c : Currency) :
    countBase (Currency.save s c) = 1 := by
  rw [Currency.save]
  by_cases h1 : c.is_base_currency
  · rw [if_pos h1]
    exact countBase_save_base hWF (by simpa using h1)
  · rw [if_neg h1]
    by_cases h2 : existsOtherBase s c.pk = false
    · rw [if_pos h2]
      exact countBase_save_promote hWF (existsOtherBase_eq_false h2)
    · rw [if_neg h2]
      rw [Bool.not_eq_false] at h2
      obtain ⟨u, hu, hune, hub⟩ := existsOtherBase_eq_true h2
      have hone : countBase s = 1 := by
        rcases hinv with rfl | hs
        · cases hu
        · exact hs
      rw [countBase_upsert_nonbase (by simpa using h1) ?hold]
      · exact hone
      case hold =>
        intro r hr hrpk
        rcases Bool.eq_false_or_eq_true r.is_base_currency with hb | hb
        · have := base_unique hone hr hu hb hub
          subst this
          exact absurd hrpk hune
        · exact hb

/-- One delete step (of a stored row) preserves the single-base invariant. -/
theorem countBase_delete {s : CurrencyStore} (hWF : WFCurrencies s)
    (hinv : s = [] ∨ countBase s = 1) {c : Currency} (hc : c ∈ s) :
    Currency.delete s c = [] ∨ countBase (Currency.delete s c) = 1 := by
  have hone : countBase s = 1 := by
    rcases hinv with rfl | hs
    · cases hc
    · exact hs
  rw [Currency.delete]
  by_cases h1 : c.is_base_currency
  · rw [if_pos h1]
    cases hfo : firstOther s c.pk with
    | some nb =>
      right
      obtain ⟨hnb, hnbne⟩ := firstOther_some hfo
      have hsave : countBase (Currency.save s { nb with is_base_currency := true }) = 1 := by
        rw [Currency.save, if_pos (by rfl)]
        exact countBase_save_base hWF rfl
      rw [countBase_remove_nonbase ?hold]
      · exact hsave
      case hold =>
        intro r hr hrpk
        rw [Currency.save, if_pos (by rfl)] at hr
        rcases mem_upsertCurrency (WFCurrencies_demoteOthers hWF _) hr with rfl | ⟨h2, h3⟩
        · exact absurd hrpk hnbne
        · rcases mem_demoteOthers_cases h2 with h4 | h4
          · exact absurd h4 h3
          · exact h4
    | none =>
      left
      have hall := firstOther_none hfo
      cases s with
      | nil => rfl
      | cons x xs =>
        rw [WFCurrencies, List.pairwise_cons] at hWF
        have hx : x.pk = c.pk := hall x (List.mem_cons_self x xs)
        rw [removeCurrency, if_pos hx]
        cases xs with
        | nil => rfl
        | cons y ys =>
          exact absurd (hall y (List.mem_cons_of_mem x (List.mem_cons_self y ys)))
            (fun he => hWF.1 y (List.mem_cons_self y ys) (hx.trans he.symm))
  · rw [if_neg h1]
    right
    rw [countBase_remove_nonbase ?hold]
    · exact hone
    case hold =>
      intro r hr hrpk
      have := unique_mem_pk hWF hr hc hrpk
      subst this
      simpa using h1

/-- C2.  After every currency save and after every currency delete —
that is, after any sequence of currency mutations starting from the
empty table — if at least one currency exists then exactly one currency
has `is_base_currency = true`. -/
theorem C2_single_base_invariant (ops : List CurrencyOp)
    (hne : runCurrencyOps ops ≠ []) : countBase (runCurrencyOps ops) = 1 := by
  suffices haux : ∀ (ops' : List CurrencyOp) (s₀ : CurrencyStore),
      WFCurrencies s₀ → (s₀ = [] ∨ countBase s₀ = 1) →
      WFCurrencies (ops'.foldl applyCurrencyOp s₀) ∧
        (ops'.foldl applyCurrencyOp s₀ = [] ∨ countBase (ops'.foldl applyCurrencyOp s₀) = 1) by
    have h := haux ops [] (by rw [WFCurrencies]; exact List.Pairwise.nil) (Or.inl rfl)
    rcases h.2 with h2 | h2
    · exact absurd h2 hne
    · exact h2
  intro ops'
  induction ops' with
  | nil => intro s₀ hWF hinv; exact ⟨hWF, hinv⟩
  | cons op rest ih =>
    intro s₀ hWF hinv
    rw [List.foldl_cons]
    refine ih (applyCurrencyOp s₀ op) ?_ ?_
    · cases op with
      | save c => exact WFCurrencies_save hWF c
      | del pk =>
        rw [applyCurrencyOp]
        cases hl : lookupCurrency s₀ pk with
        | some c => exact WFCurrencies_delete hWF c
        | none => exact hWF
    · cases op with
      | save c => exact Or.inr (countBase_save hWF hinv c)
      | del pk =>
        rw [applyCurrencyOp]
        cases hl : lookupCurrency s₀ pk with
        | some c => exact countBase_delete hWF hinv (lookupCurrency_mem hl).1
        | none => exact hinv

/-- Witness for C2: creating a single non-base-marked currency promotes
it, leaving exactly one base row. -/
theorem C2_single_base_invariant_witness :
    runCurrencyOps [CurrencyOp.save ⟨0, "USD", "US Dollar", "$", false⟩] ≠ [] ∧
    countBase (runCurrencyOps [CurrencyOp.save ⟨0, "USD", "US Dollar", "$", false⟩]) = 1 := by
  have hne : runCurrencyOps [CurrencyOp.save ⟨0, "USD", "US Dollar", "$", false⟩] ≠ [] := by
    intro hc
    exact List.cons_ne_nil _ _ (by
      rw [show runCurrencyOps [CurrencyOp.save ⟨0, "USD", "US Dollar", "$", false⟩] =
        [⟨0, "USD", "US Dollar", "$", true⟩] from rfl] at hc
      exact hc)
  exact ⟨hne, C2_single_base_invariant _ hne⟩

/-!
## The conversion graph and breadth-first search
(`Currency.convert_to` in src/currencies/models.py)

The builder groups stored rate rows by ordered currency pair, takes the
row with the maximum date for each pair, and adds a forward edge
carrying its factor followed by a reverse edge carrying the exact
`Decimal` reciprocal `1.0 / factor` — raising a division error (modelled
as `Except.error`) when the factor is zero.  The weight dictionary is a
Python dict: a later assignment to the same ordered pair overwrites an
earlier one.  Pairs are processed in first-occurrence store order (the
queryset iteration order is unspecified; this fixes one order).
-/

/-- The in-memory graph: `graph` adjacency appends (edge list in append
order, duplicates kept) plus the `conversion_factor_lookup` dict. -/

theorem dictLookup_insert_same (m : List ((ℕ × ℕ) × ℚ)) (k : ℕ × ℕ) (v : ℚ) :
    dictLookup (dictInsert m k v) k = some v := by
  simp [dictLookup, dictInsert]

theorem dictLookup_insert_other (m : List ((ℕ × ℕ) × ℚ)) {k k' : ℕ × ℕ} (v : ℚ)
    (h : k' ≠ k) : dictLookup (dictInsert m k v) k' = dictLookup m k' := by
  simp only [dictLookup, dictInsert]
  rw [List.find?_cons_of_neg]
  simpa using fun hc => h hc.symm

theorem latestRate_keys {s : RateStore} {a b : ℕ} {cf : ConversionFactor}
    (h : latestRate s a b = some cf) :
    cf ∈ s ∧ cf.from_currency = a ∧ cf.to_currency = b := by
  induction s with
  | nil => cases h
  | cons r rest ih =>
    rw [latestRate] at h
    by_cases hr : r.from_currency = a ∧ r.to_currency = b
    · rw [if_pos hr] at h
      cases hrest : latestRate rest a b with
      | none =>
        rw [hrest] at h
        replace h : some r = some cf := h
        injection h with h
        subst h
        exact ⟨List.mem_cons_self _ _, hr⟩
      | some r2 =>
        rw [hrest] at h
        replace h : (if r2.date < r.date then some r else some r2) = some cf := h
        by_cases hd : r2.date < r.date
        · rw [if_pos hd] at h
          injection h with h
          subst h
          exact ⟨List.mem_cons_self _ _, hr⟩
        · rw [if_neg hd] at h
          injection h with h
          subst h
          obtain ⟨h1, h2⟩ := ih hrest
          exact ⟨List.mem_cons_of_mem r h1, h2⟩
    · rw [if_neg hr] at h
      obtain ⟨h1, h2⟩ := ih h
      exact ⟨List.mem_cons_of_mem r h1, h2⟩

theorem latestRate_none {s : RateStore} {a b : ℕ} (h : latestRate s a b = none) :
    ∀ r ∈ s, ¬(r.from_currency = a ∧ r.to_currency = b) := by
  induction s with
  | nil => intro r hr; cases hr
  | cons x xs ih =>
    intro r hr
    rw [latestRate] at h
    by_cases hx : x.from_currency = a ∧ x.to_currency = b
    · rw [if_pos hx] at h
      exfalso
      cases hlx : latestRate xs a b with
      | none =>
        rw [hlx] at h
        exact Option.some_ne_none x h
      | some v =>
        rw [hlx] at h
        replace h : (if v.date < x.date then some x else some v) = none := h
        by_cases hd : v.date < x.date
        · rw [if_pos hd] at h; exact Option.some_ne_none x h
        · rw [if_neg hd] at h; exact Option.some_ne_none v h
    · rw [if_neg hx] at h
      rcases List.mem_cons.mp hr with rfl | hxs
      · exact hx
      · exact ih h r hxs

/-- `latestRate` picks the row with the maximum date for its pair. -/
theorem latestRate_max {s : RateStore} {a b : ℕ} :
    ∀ cf, latestRate s a b = some cf →
    ∀ r ∈ s, r.from_currency = a → r.to_currency = b → r.date ≤ cf.date := by
  induction s with
  | nil => intro cf h; cases h
  | cons r0 rest ih =>
    intro cf h r hr hra hrb
    rw [latestRate] at h
    by_cases hr0 : r0.from_currency = a ∧ r0.to_currency = b
    · rw [if_pos hr0] at h
      cases hrest : latestRate rest a b with
      | none =>
        rw [hrest] at h
        replace h : some r0 = some cf := h
        injection h with h
        subst h
        rcases List.mem_cons.mp hr with rfl | hr'
        · exact Nat.le_refl _
        · exact absurd ⟨hra, hrb⟩ (latestRate_none hrest r hr')
      | some r2 =>
        rw [hrest] at h
        replace h : (if r2.date < r0.date then some r0 else some r2) = some cf := h
        by_cases hd : r2.date < r0.date
        · rw [if_pos hd] at h
          injection h with h
          subst h
          rcases List.mem_cons.mp hr with rfl | hr'
          · exact Nat.le_refl _
          · have := ih r2 hrest r hr' hra hrb
            omega
        · rw [if_neg hd] at h
          injection h with h
          subst h
          rcases List.mem_cons.mp hr with rfl | hr'
          · omega
          · exact ih r2 hrest r hr' hra hrb
    · rw [if_neg hr0] at h
      rcases List.mem_cons.mp hr with rfl | hr'
      · exact absurd ⟨hra, hrb⟩ hr0
      · exact ih cf h r hr' hra hrb

theorem latestRate_isSome_of_mem {s : RateStore} {r : ConversionFactor}
    (hr : r ∈ s) : ∃ cf, latestRate s r.from_currency r.to_currency = some cf := by
  induction s with
  | nil => cases hr
  | cons x xs ih =>
    rw [latestRate]
    by_cases hx : x.from_currency = r.from_currency ∧ x.to_currency = r.to_currency
    · rw [if_pos hx]
      cases hrest : latestRate xs r.from_currency r.to_currency with
      | none => exact ⟨x, rfl⟩
      | some r2 =>
        by_cases hd : r2.date < x.date
        · exact ⟨x, show (if r2.date < x.date then some x else some r2) = some x from
            by rw [if_pos hd]⟩
        · exact ⟨r2, show (if r2.date < x.date then some x else some r2) = some r2 from
            by rw [if_neg hd]⟩
    · rw [if_neg hx]
      rcases List.mem_cons.mp hr with rfl | hxs
      · exact absurd ⟨rfl, rfl⟩ hx
      · exact ih hxs

theorem mem_ratePairs {s : RateStore} {p : ℕ × ℕ} :
    p ∈ ratePairs s ↔ ∃ r ∈ s, (r.from_currency, r.to_currency) = p := by
  induction s with
  | nil => simp [ratePairs]
  | cons x xs ih =>
    rw [ratePairs]
    constructor
    · intro hp
      rcases List.mem_cons.mp hp with rfl | hp'
      · exact ⟨x, List.mem_cons_self _ _, rfl⟩
      · obtain ⟨r, hr, he⟩ := ih.mp (List.mem_of_mem_filter hp')
        exact ⟨r, List.mem_cons_of_mem x hr, he⟩
    · rintro ⟨r, hr, rfl⟩
      rcases List.mem_cons.mp hr with rfl | hr'
      · exact List.mem_cons_self _ _
      · by_cases he : (r.from_currency, r.to_currency) = (x.from_currency, x.to_currency)
        · rw [he]
          exact List.mem_cons_self _ _
        · refine List.mem_cons_of_mem _ (List.mem_filter.mpr ⟨ih.mpr ⟨r, hr', rfl⟩, ?_⟩)
          simpa only [decide_eq_true_eq] using he

theorem ratePairs_latest_some {s : RateStore} {p : ℕ × ℕ} (hp : p ∈ ratePairs s) :
    ∃ cf, latestRate s p.1 p.2 = some cf := by
  obtain ⟨r, hr, he⟩ := mem_ratePairs.mp hp
  obtain ⟨cf, hcf⟩ := latestRate_isSome_of_mem hr
  exact ⟨cf, by rw [← he]; exact hcf⟩

theorem buildStep_ok {s : RateStore} {g : ConversionGraph} {p : ℕ × ℕ}
    {cf : ConversionFactor} (hlat : latestRate s p.1 p.2 = some cf)
    (hnz : cf.factor ≠ 0) :
    buildStep s g p = Except.ok
      ⟨g.edges ++ [(p.1, p.2), (p.2, p.1)],
        dictInsert (dictInsert g.weights (p.1, p.2) cf.factor) (p.2, p.1) (1 / cf.factor)⟩ := by
  obtain ⟨-, hfa, hfb⟩ := latestRate_keys hlat
  rw [buildStep, hlat]
  have hred : (match some cf with
      | none => Except.ok g
      | some cf =>
        let g1 : ConversionGraph :=
          ⟨g.edges ++ [(cf.from_currency, cf.to_currency)],
            dictInsert g.weights (cf.from_currency, cf.to_currency) cf.factor⟩
        if cf.factor = 0 then Except.error ()
        else Except.ok
          ⟨g1.edges ++ [(cf.to_currency, cf.from_currency)],
            dictInsert g1.weights (cf.to_currency, cf.from_currency) (1 / cf.factor)⟩ :
      Except Unit ConversionGraph) =
      if cf.factor = 0 then Except.error ()
      else Except.ok
        ⟨(g.edges ++ [(cf.from_currency, cf.to_currency)]) ++ [(cf.to_currency, cf.from_currency)],
          dictInsert (dictInsert g.weights (cf.from_currency, cf.to_currency) cf.factor)
            (cf.to_currency, cf.from_currency) (1 / cf.factor)⟩ := rfl
  rw [hred, if_neg hnz, hfa, hfb, List.append_assoc]
  rfl

theorem buildStep_err {s : RateStore} {g : ConversionGraph} {p : ℕ × ℕ}
    {cf : ConversionFactor} (hlat : latestRate s p.1 p.2 = some cf)
    (hz : cf.factor = 0) : buildStep s g p = Except.error () := by
  rw [buildStep, hlat]
  have hred : (match some cf with
      | none => Except.ok g
      | some cf =>
        let g1 : ConversionGraph :=
          ⟨g.edges ++ [(cf.from_currency, cf.to_currency)],
            dictInsert g.weights (cf.from_currency, cf.to_currency) cf.factor⟩
        if cf.factor = 0 then Except.error ()
        else Except.ok
          ⟨g1.edges ++ [(cf.to_currency, cf.from_currency)],
            dictInsert g1.weights (cf.to_currency, cf.from_currency) (1 / cf.factor)⟩ :
      Except Unit ConversionGraph) =
      if cf.factor = 0 then Except.error ()
      else Except.ok
        ⟨(g.edges ++ [(cf.from_currency, cf.to_currency)]) ++ [(cf.to_currency, cf.from_currency)],
          dictInsert (dictInsert g.weights (cf.from_currency, cf.to_currency) cf.factor)
            (cf.to_currency, cf.from_currency) (1 / cf.factor)⟩ := rfl
  rw [hred, if_pos hz]

/-- Characterization of the weight dictionary produced by the builder
fold: a key untouched by the processed pairs keeps its initial binding;
a key touched by a pair (forward or reverse) ends bound to the latest
forward factor or to the exact reciprocal of the latest reverse factor;
and a key whose reverse pair is never processed ends bound to exactly
the latest forward factor. -/
theorem buildFold_weights {s : RateStore} :
    ∀ (ps : List (ℕ × ℕ)) (g₀ g : ConversionGraph),
      (∀ p ∈ ps, ∃ cf, latestRate s p.1 p.2 = some cf) →
      ps.foldlM (buildStep s) g₀ = Except.ok g →
      ∀ x y : ℕ,
        ((x, y) ∉ ps → (y, x) ∉ ps →
          dictLookup g.weights (x, y) = dictLookup g₀.weights (x, y)) ∧
        (((x, y) ∈ ps ∨ (y, x) ∈ ps) →
          ∃ v, dictLookup g.weights (x, y) = some v ∧
            ((∃ cf, latestRate s x y = some cf ∧ v = cf.factor) ∨
             (∃ cf, latestRate s y x = some cf ∧ v = 1 / cf.factor))) ∧
        ((x, y) ∈ ps → (y, x) ∉ ps →
          ∃ cf, latestRate s x y = some cf ∧ dictLookup g.weights (x, y) = some cf.factor) := by
  intro ps
  induction ps with
  | nil =>
    intro g₀ g _ hok x y
    simp only [List.foldlM_nil] at hok
    replace hok : Except.ok g₀ = Except.ok g := hok
    injection hok with hok
    subst hok
    refine ⟨fun _ _ => rfl, fun hm => ?_, fun hm _ => ?_⟩
    · rcases hm with hm | hm <;> cases hm
    · cases hm
  | cons hd rest ih =>
    intro g₀ g hps hok x y
    obtain ⟨a, b⟩ := hd
    obtain ⟨cf, hlat⟩ := hps (a, b) (List.mem_cons_self _ _)
    simp only [List.foldlM_cons] at hok
    by_cases hz : cf.factor = 0
    · rw [buildStep_err hlat hz] at hok
      replace hok : (Except.error () : Except Unit ConversionGraph) = Except.ok g := hok
      cases hok
    · rw [buildStep_ok hlat hz] at hok
      replace hok : rest.foldlM (buildStep s)
          ⟨g₀.edges ++ [(a, b), (b, a)],
            dictInsert (dictInsert g₀.weights (a, b) cf.factor) (b, a) (1 / cf.factor)⟩ =
          Except.ok g := hok
      have hpsrest : ∀ p ∈ rest, ∃ cf, latestRate s p.1 p.2 = some cf :=
        fun p hp => hps p (List.mem_cons_of_mem _ hp)
      refine ⟨?_, ?_, ?_⟩
      · -- untouched key
        intro hxy hyx
        have hxyr : (x, y) ∉ rest := fun hc => hxy (List.mem_cons_of_mem _ hc)
        have hyxr : (y, x) ∉ rest := fun hc => hyx (List.mem_cons_of_mem _ hc)
        have hxyh : ((x, y) : ℕ × ℕ) ≠ (a, b) := fun hc => hxy (hc ▸ List.mem_cons_self _ _)
        have hyxh : ((y, x) : ℕ × ℕ) ≠ (a, b) := fun hc => hyx (hc ▸ List.mem_cons_self _ _)
        have hxyba : ((x, y) : ℕ × ℕ) ≠ (b, a) := by
          intro hc
          obtain ⟨h1, h2⟩ : x = b ∧ y = a := by simpa [Prod.ext_iff] using hc
          exact hyxh (by rw [h1, h2])
        rw [(ih _ g hpsrest hok x y).1 hxyr hyxr, dictLookup_insert_other _ _ hxyba,
          dictLookup_insert_other _ _ hxyh]
      · -- touched key: disjunctive value
        intro hmem
        by_cases hrest : (x, y) ∈ rest ∨ (y, x) ∈ rest
        · exact (ih _ g hpsrest hok x y).2.1 hrest
        · push_neg at hrest
          have hhd : ((x, y) : ℕ × ℕ) = (a, b) ∨ ((y, x) : ℕ × ℕ) = (a, b) := by
            rcases hmem with hm | hm
            · rcases List.mem_cons.mp hm with hm1 | hm1
              · exact Or.inl hm1
              · exact absurd hm1 hrest.1
            · rcases List.mem_cons.mp hm with hm1 | hm1
              · exact Or.inr hm1
              · exact absurd hm1 hrest.2
          rw [(ih _ g hpsrest hok x y).1 hrest.1 hrest.2]
          rcases hhd with hm1 | hm1
          · obtain ⟨hxa, hyb⟩ : x = a ∧ y = b := by simpa [Prod.ext_iff] using hm1
            subst hxa
            subst hyb
            by_cases hab : x = y
            · subst hab
              rw [dictLookup_insert_same]
              exact ⟨1 / cf.factor, rfl, Or.inr ⟨cf, hlat, rfl⟩⟩
            · rw [dictLookup_insert_other _ _ (by
                intro hc
                obtain ⟨h1, h2⟩ : x = y ∧ y = x := by simpa [Prod.ext_iff] using hc
                exact hab h1), dictLookup_insert_same]
              exact ⟨cf.factor, rfl, Or.inl ⟨cf, hlat, rfl⟩⟩
          · obtain ⟨hya, hxb⟩ : y = a ∧ x = b := by simpa [Prod.ext_iff] using hm1
            subst hya
            subst hxb
            rw [dictLookup_insert_same]
            exact ⟨1 / cf.factor, rfl, Or.inr ⟨cf, hlat, rfl⟩⟩
      · -- forward-only key: exactly the latest factor
        intro hxy hyx
        have hyxh : ((y, x) : ℕ × ℕ) ≠ (a, b) := fun hc => hyx (hc ▸ List.mem_cons_self _ _)
        have hyxr : (y, x) ∉ rest := fun hc => hyx (List.mem_cons_of_mem _ hc)
        by_cases hxyr : (x, y) ∈ rest
        · exact (ih _ g hpsrest hok x y).2.2 hxyr hyxr
        · have hm1 : ((x, y) : ℕ × ℕ) = (a, b) := by
            rcases List.mem_cons.mp hxy with hm | hm
            · exact hm
            · exact absurd hm hxyr
          obtain ⟨hxa, hyb⟩ : x = a ∧ y = b := by simpa [Prod.ext_iff] using hm1
          subst hxa
          subst hyb
          have hab : x ≠ y := by
            intro hc
            subst hc
            exact hyxh rfl
          rw [(ih _ g hpsrest hok x y).1 hxyr hyxr,
            dictLookup_insert_other _ _ (by
              intro hc
              obtain ⟨h1, h2⟩ : x = y ∧ y = x := by simpa [Prod.ext_iff] using hc
              exact hab h1), dictLookup_insert_same]
          exact ⟨cf, hlat, rfl⟩

/-- Characterization of the edge list produced by the builder fold. -/
theorem buildFold_edges {s : RateStore} :
    ∀ (ps : List (ℕ × ℕ)) (g₀ g : ConversionGraph),
      (∀ p ∈ ps, ∃ cf, latestRate s p.1 p.2 = some cf) →
      ps.foldlM (buildStep s) g₀ = Except.ok g →
      ∀ x y : ℕ, ((x, y) ∈ g.edges ↔ (x, y) ∈ g₀.edges ∨ (x, y) ∈ ps ∨ (y, x) ∈ ps) := by
  intro ps
  induction ps with
  | nil =>
    intro g₀ g _ hok x y
    simp only [List.foldlM_nil] at hok
    replace hok : Except.ok g₀ = Except.ok g := hok
    injection hok with hok
    subst hok
    simp
  | cons hd rest ih =>
    intro g₀ g hps hok x y
    obtain ⟨a, b⟩ := hd
    obtain ⟨cf, hlat⟩ := hps (a, b) (List.mem_cons_self _ _)
    simp only [List.foldlM_cons] at hok
    by_cases hz : cf.factor = 0
    · rw [buildStep_err hlat hz] at hok
      replace hok : (Except.error () : Except Unit ConversionGraph) = Except.ok g := hok
      cases hok
    · rw [buildStep_ok hlat hz] at hok
      replace hok : rest.foldlM (buildStep s)
          ⟨g₀.edges ++ [(a, b), (b, a)],
            dictInsert (dictInsert g₀.weights (a, b) cf.factor) (b, a) (1 / cf.factor)⟩ =
          Except.ok g := hok
      have hih := ih _ g (fun p hp => hps p (List.mem_cons_of_mem _ hp)) hok x y
      rw [hih]
      simp only [List.mem_append, List.mem_cons, List.mem_singleton, List.not_mem_nil,
        or_false, Prod.mk.injEq]
      constructor
      · rintro ((h | (⟨h1, h2⟩ | ⟨h1, h2⟩)) | h | h)
        · exact Or.inl h
        · subst h1; subst h2; exact Or.inr (Or.inl (Or.inl ⟨rfl, rfl⟩))
        · subst h1; subst h2; exact Or.inr (Or.inr (Or.inl ⟨rfl, rfl⟩))
        · exact Or.inr (Or.inl (Or.inr h))
        · exact Or.inr (Or.inr (Or.inr h))
      · rintro (h | ((h | h) | (h | h)))
        · exact Or.inl (Or.inl h)
        · obtain ⟨h1, h2⟩ : x = a ∧ y = b := by simpa [Prod.ext_iff] using h
          subst h1; subst h2
          exact Or.inl (Or.inr (Or.inl ⟨rfl, rfl⟩))
        · exact Or.inr (Or.inl h)
        · obtain ⟨h1, h2⟩ : y = a ∧ x = b := by simpa [Prod.ext_iff] using h
          subst h1; subst h2
          exact Or.inl (Or.inr (Or.inr ⟨rfl, rfl⟩))
        · exact Or.inr (Or.inr h)

theorem findByCode_none {cs : CurrencyStore} {code : String}
    (h : ∀ c ∈ cs, c.code ≠ code) : findByCode cs code = none := by
  induction cs with
  | nil => rfl
  | cons x xs ih =>
    rw [findByCode, if_neg (h x (List.mem_cons_self x xs))]
    exact ih fun c hc => h c (List.mem_cons_of_mem x hc)

/-- A zero-weight edge anywhere on a path makes the composed factor zero. -/
theorem pathWeight_zero_of_zero_edge {g : ConversionGraph} {x y : ℕ}
    (hxy : wOf g x y = 0) :
    ∀ (p₁ p₂ : List ℕ), pathWeight g (p₁ ++ x :: y :: p₂) = 0 := by
  intro p₁
  induction p₁ with
  | nil =>
    intro p₂
    rw [List.nil_append]
    have : pathWeight g (x :: y :: p₂) = wOf g x y * pathWeight g (y :: p₂) := rfl
    rw [this, hxy, zero_mul]
  | cons a l ih =>
    intro p₂
    have hne : l ++ x :: y :: p₂ ≠ [] := by simp
    obtain ⟨c, rest, hcr⟩ := List.exists_cons_of_ne_nil hne
    rw [List.cons_append, hcr]
    have : pathWeight g (a :: c :: rest) = wOf g a c * pathWeight g (c :: rest) := rfl
    rw [this, ← hcr, ih p₂, mul_zero]

/-- C6.  A conversion whose target is a code matching no currency
returns the `(None, None, amount)` sentinel with the amount unchanged —
before the graph is even built, so no exception can escape — and a
conversion whose search exhausts the queue returns the same sentinel. -/
theorem C6_unknown_target_sentinel :
    (∀ (cs : CurrencyStore) (rs : RateStore) (source : ℕ) (code : String) (amount : ℚ),
      (∀ c ∈ cs, c.code ≠ code) →
      convert_to cs rs source (.code code) amount = Except.ok (none, amount)) ∧
    (∀ (cs : CurrencyStore) (rs : RateStore) (source tpk : ℕ) (amount : ℚ)
      (g : ConversionGraph),
      buildGraph rs = Except.ok g → bfsSearch g source tpk = some none →
      convert_to cs rs source (.obj tpk) amount = Except.ok (none, amount)) := by
  constructor
  · intro cs rs source code amount h
    rw [convert_to, show resolveTarget cs (.code code) = none from (by
      rw [resolveTarget, findByCode_none h]
      rfl)]
  · intro cs rs source tpk amount g hbuild hsearch
    simp only [convert_to, resolveTarget, hbuild, hsearch]

/-- Witness for C6 at concrete inputs. -/
theorem C6_unknown_target_sentinel_witness :
    convert_to [] [] 0 (.code "XXX") 5 = Except.ok (none, 5) ∧
    convert_to [] [] 0 (.obj 1) 5 = Except.ok (none, 5) := by
  constructor
  · exact C6_unknown_target_sentinel.1 [] [] 0 "XXX" 5 (fun c hc => absurd hc (List.not_mem_nil c))
  · exact C6_unknown_target_sentinel.2 [] [] 0 1 5 ⟨[], []⟩ rfl rfl

/-- C4, evaluation at the failing input.  Saving the zero-factor rate
`(0, 1, date 5, 0)` stores reciprocal factor `0` without error (the
maintainer special-cases zero), but the conversion-graph build then hits
`Decimal("1.0") / factor` with the stored zero factor and raises a
division error, so every conversion over such a store fails instead of
propagating a zero amount; the multiplicative zero-propagation the claim
describes does hold for the composed path factor itself. -/
theorem C4_zero_factor_division_error :
    saveRate [] 0 1 5 0 = some [⟨0, 1, 5, 0⟩, ⟨1, 0, 5, 0⟩] ∧
    buildGraph [⟨0, 1, 5, 0⟩, ⟨1, 0, 5, 0⟩] = Except.error () ∧
    convert_to [] [⟨0, 1, 5, 0⟩, ⟨1, 0, 5, 0⟩] 0 (.obj 1) 100 = Except.error () ∧
    pathWeight ⟨[(0, 1)], [((0, 1), 0)]⟩ [0, 1] = 0 := by
  have hbuild : buildGraph [⟨0, 1, 5, 0⟩, ⟨1, 0, 5, 0⟩] = Except.error () := by
    rw [buildGraph,
      show ratePairs [⟨0, 1, 5, 0⟩, ⟨1, 0, 5, 0⟩] = [(0, 1), (1, 0)] from rfl,
      List.foldlM_cons,
      buildStep_err (show latestRate [⟨0, 1, 5, 0⟩, ⟨1, 0, 5, 0⟩] 0 1 = some ⟨0, 1, 5, 0⟩ from rfl) rfl]
    rfl
  refine ⟨?_, hbuild, ?_, ?_⟩
  · rw [saveRate_eq_of_ne (by decide) [] 5 0]
    rw [if_neg (by rw [show lookupFactor [] 1 0 5 = none from rfl]; simp)]
    rw [show upsertRate [] 0 1 5 0 = [⟨0, 1, 5, quant4 0⟩] from rfl, quant4_zero]
    rw [show rawReverse 0 = 0 from rfl]
    rw [show upsertRate [⟨0, 1, 5, 0⟩] 1 0 5 0 = [⟨0, 1, 5, 0⟩, ⟨1, 0, 5, quant4 0⟩] from (by
      rw [upsertRate, if_neg (by decide)]
      rfl), quant4_zero]
  · simp only [convert_to, resolveTarget, hbuild]
  · have h1 : pathWeight ⟨[(0, 1)], [((0, 1), 0)]⟩ [0, 1] =
        wOf ⟨[(0, 1)], [((0, 1), 0)]⟩ 0 1 * pathWeight ⟨[(0, 1)], [((0, 1), 0)]⟩ [1] := rfl
    rw [h1, show wOf ⟨[(0, 1)], [((0, 1), 0)]⟩ 0 1 = 0 from rfl, zero_mul]

theorem ratePairs_mem_iff {s : RateStore} {x y : ℕ} :
    (x, y) ∈ ratePairs s ↔ ∃ r ∈ s, r.from_currency = x ∧ r.to_currency = y := by
  rw [mem_ratePairs]
  constructor
  · rintro ⟨r, hr, he⟩
    obtain ⟨h1, h2⟩ : r.from_currency = x ∧ r.to_currency = y := by
      simpa [Prod.ext_iff] using he
    exact ⟨r, hr, h1, h2⟩
  · rintro ⟨r, hr, h1, h2⟩
    exact ⟨r, hr, by rw [h1, h2]⟩

/-- C8, amended.  The builder materializes, for each ordered pair with a
stored record, both the forward edge and a synthesized reverse edge (the
source comment says "Add reverse edge"), so the edge set is the stored
ordered pairs together with all their reverses — convertibility in both
directions does not depend solely on the reciprocal maintainer. -/
theorem C8_edge_set (s : RateStore) (g : ConversionGraph)
    (h : buildGraph s = Except.ok g) (x y : ℕ) :
    (x, y) ∈ g.edges ↔
      ((∃ r ∈ s, r.from_currency = x ∧ r.to_currency = y) ∨
       (∃ r ∈ s, r.from_currency = y ∧ r.to_currency = x)) := by
  rw [buildGraph] at h
  rw [buildFold_edges (ratePairs s) ⟨[], []⟩ g (fun p hp => ratePairs_latest_some hp) h x y]
  rw [show ((x, y) ∈ (⟨[], []⟩ : ConversionGraph).edges) = False by simp]
  rw [ratePairs_mem_iff, ratePairs_mem_iff]
  simp

/-- Witness for C8: with the single stored pair `(4, 5)`, the edge
`(5, 4)` is present (synthesized), and `(6, 4)` is absent. -/
theorem C8_edge_set_witness :
    ((5, 4) ∈ (⟨[(4, 5), (5, 4)], [((5, 4), 1/1), ((4, 5), 1)]⟩ : ConversionGraph).edges ↔
      ((∃ r ∈ ([⟨4, 5, 9, 1⟩] : RateStore), r.from_currency = 5 ∧ r.to_currency = 4) ∨
       (∃ r ∈ ([⟨4, 5, 9, 1⟩] : RateStore), r.from_currency = 4 ∧ r.to_currency = 5))) ∧
    (5, 4) ∈ (⟨[(4, 5), (5, 4)], [((5, 4), 1/1), ((4, 5), 1)]⟩ : ConversionGraph).edges := by
  constructor
  · exact C8_edge_set [⟨4, 5, 9, 1⟩] _ (by
      rw [buildGraph, show ratePairs [⟨4, 5, 9, 1⟩] = [(4, 5)] from rfl, List.foldlM_cons,
        buildStep_ok (show latestRate [⟨4, 5, 9, 1⟩] 4 5 = some ⟨4, 5, 9, 1⟩ from rfl) (by norm_num)]
      rfl) 5 4
  · simp

/-- C8, counterexample to the claim as stated: with a single stored
record `(0, 1)`, the built graph contains the reverse edge `(1, 0)`
although no `(1, 0)` record exists in the store — the edge set is not
"exactly the set of ordered pairs that have at least one stored record",
and the builder does synthesize reverse edges. -/
theorem C8_claim_counterexample :
    buildGraph [⟨0, 1, 5, 2⟩] =
      Except.ok ⟨[(0, 1), (1, 0)], [((1, 0), 1/2), ((0, 1), 2)]⟩ ∧
    (1, 0) ∈ (⟨[(0, 1), (1, 0)], [((1, 0), 1/2), ((0, 1), 2)]⟩ : ConversionGraph).edges ∧
    (∀ r ∈ ([⟨0, 1, 5, 2⟩] : RateStore), ¬(r.from_currency = 1 ∧ r.to_currency = 0)) := by
  refine ⟨?_, by simp, ?_⟩
  · rw [buildGraph, show ratePairs [⟨0, 1, 5, 2⟩] = [(0, 1)] from rfl, List.foldlM_cons,
      buildStep_ok (show latestRate [⟨0, 1, 5, 2⟩] 0 1 = some ⟨0, 1, 5, 2⟩ from rfl) (by norm_num)]
    rfl
  · intro r hr
    rw [List.mem_singleton] at hr
    subst hr
    rintro ⟨h1, -⟩
    cases h1

theorem wOf_eq_of_dictLookup {g : ConversionGraph} {x y : ℕ} {v : ℚ}
    (h : dictLookup g.weights (x, y) = some v) : wOf g x y = v := by
  rw [wOf, h]
  rfl

/-- C7, amended.  `latestRate` does pick the maximum-date record of its
ordered pair, and the built edge `X → Y` carries that record's factor
whenever no `(Y, X)` record exists; but when records exist in both
directions the edge carries either the latest `(X, Y)` factor or the
exact reciprocal of the latest `(Y, X)` factor, depending on processing
order — the reverse-edge write of the opposite pair can overwrite the
stored factor (see `C7_claim_counterexample`). -/
theorem C7_edge_weight (s : RateStore) (g : ConversionGraph)
    (h : buildGraph s = Except.ok g) (x y : ℕ) :
    (∀ cf, latestRate s x y = some cf →
      cf ∈ s ∧ cf.from_currency = x ∧ cf.to_currency = y ∧
        ∀ r ∈ s, r.from_currency = x → r.to_currency = y → r.date ≤ cf.date) ∧
    ((∃ r ∈ s, r.from_currency = x ∧ r.to_currency = y) →
      (¬∃ r ∈ s, r.from_currency = y ∧ r.to_currency = x) →
      ∃ cf, latestRate s x y = some cf ∧ wOf g x y = cf.factor) ∧
    ((∃ r ∈ s, r.from_currency = x ∧ r.to_currency = y) →
      ∃ v, dictLookup g.weights (x, y) = some v ∧ wOf g x y = v ∧
        ((∃ cf, latestRate s x y = some cf ∧ v = cf.factor) ∨
         (∃ cf, latestRate s y x = some cf ∧ v = 1 / cf.factor))) := by
  rw [buildGraph] at h
  have hw := buildFold_weights (ratePairs s) ⟨[], []⟩ g
    (fun p hp => ratePairs_latest_some hp) h x y
  refine ⟨?_, ?_, ?_⟩
  · intro cf hcf
    obtain ⟨h1, h2, h3⟩ := latestRate_keys hcf
    exact ⟨h1, h2, h3, latestRate_max cf hcf⟩
  · intro hfwd hrev
    obtain ⟨cf, hcf, hl⟩ := hw.2.2 (ratePairs_mem_iff.mpr hfwd)
      (fun hc => hrev (ratePairs_mem_iff.mp hc))
    exact ⟨cf, hcf, wOf_eq_of_dictLookup hl⟩
  · intro hfwd
    obtain ⟨v, hv, hd⟩ := hw.2.1 (Or.inl (ratePairs_mem_iff.mpr hfwd))
    exact ⟨v, hv, wOf_eq_of_dictLookup hv, hd⟩

/-- Witness for C7 at a store with a single directed pair. -/
theorem C7_edge_weight_witness :
    ∃ cf, latestRate [⟨2, 3, 7, 2⟩] 2 3 = some cf ∧
      wOf ⟨[(2, 3), (3, 2)], [((3, 2), 1/2), ((2, 3), 2)]⟩ 2 3 = cf.factor := by
  refine (C7_edge_weight [⟨2, 3, 7, 2⟩] _ ?_ 2 3).2.1 ?_ ?_
  · rw [buildGraph, show ratePairs [⟨2, 3, 7, 2⟩] = [(2, 3)] from rfl, List.foldlM_cons,
      buildStep_ok (show latestRate [⟨2, 3, 7, 2⟩] 2 3 = some ⟨2, 3, 7, 2⟩ from rfl) (by norm_num)]
    rfl
  · exact ⟨⟨2, 3, 7, 2⟩, List.mem_singleton.mpr rfl, rfl, rfl⟩
  · rintro ⟨r, hr, h1, -⟩
    rw [List.mem_singleton] at hr
    subst hr
    cases h1

/-- C7, counterexample to the claim as stated: with the (maintainer
produced) store holding `(0, 1, date 5, 3)` and `(1, 0, date 5, 0.3333)`,
the built graph's edge `0 → 1` carries `1 / 0.3333 = 10000/3333`, the
exact reciprocal of the reverse record written second, and not the
factor `3` of the maximum-date `(0, 1)` record. -/
theorem C7_claim_counterexample :
    buildGraph [⟨0, 1, 5, 3⟩, ⟨1, 0, 5, 3333/10000⟩] =
      Except.ok ⟨[(0, 1), (1, 0), (1, 0), (0, 1)],
        [((0, 1), 1 / (3333/10000)), ((1, 0), 3333/10000), ((1, 0), 1/3), ((0, 1), 3)]⟩ ∧
    latestRate [⟨0, 1, 5, 3⟩, ⟨1, 0, 5, 3333/10000⟩] 0 1 = some ⟨0, 1, 5, 3⟩ ∧
    wOf ⟨[(0, 1), (1, 0), (1, 0), (0, 1)],
        [((0, 1), 1 / (3333/10000)), ((1, 0), 3333/10000), ((1, 0), 1/3), ((0, 1), 3)]⟩ 0 1 =
      1 / (3333/10000 : ℚ) ∧
    (1 / (3333/10000 : ℚ)) ≠ 3 := by
  refine ⟨?_, rfl, rfl, by norm_num⟩
  have h1 : buildStep [⟨0, 1, 5, 3⟩, ⟨1, 0, 5, 3333/10000⟩] ⟨[], []⟩ (0, 1) =
      Except.ok ⟨[(0, 1), (1, 0)], [((1, 0), 1/3), ((0, 1), 3)]⟩ := by
    rw [buildStep_ok (show latestRate [⟨0, 1, 5, 3⟩, ⟨1, 0, 5, 3333/10000⟩] 0 1 = some ⟨0, 1, 5, 3⟩ from rfl)
      (by norm_num)]
    rfl
  have h2 : buildStep [⟨0, 1, 5, 3⟩, ⟨1, 0, 5, 3333/10000⟩]
      ⟨[(0, 1), (1, 0)], [((1, 0), 1/3), ((0, 1), 3)]⟩ (1, 0) =
      Except.ok ⟨[(0, 1), (1, 0), (1, 0), (0, 1)],
        [((0, 1), 1 / (3333/10000)), ((1, 0), 3333/10000), ((1, 0), 1/3), ((0, 1), 3)]⟩ := by
    rw [buildStep_ok (show latestRate [⟨0, 1, 5, 3⟩, ⟨1, 0, 5, 3333/10000⟩] 1 0 = some ⟨1, 0, 5, 3333/10000⟩
        from rfl)
      (by norm_num)]
    rfl
  rw [buildGraph,
    show ratePairs [⟨0, 1, 5, 3⟩, ⟨1, 0, 5, 3333/10000⟩] = [(0, 1), (1, 0)] from rfl,
    List.foldlM_cons, h1]
  show List.foldlM (buildStep [⟨0, 1, 5, 3⟩, ⟨1, 0, 5, 3333/10000⟩])
    (⟨[(0, 1), (1, 0)], [((1, 0), 1/3), ((0, 1), 3)]⟩ : ConversionGraph) [(1, 0)] =
    Except.ok ⟨[(0, 1), (1, 0), (1, 0), (0, 1)],
      [((0, 1), 1 / (3333/10000)), ((1, 0), 3333/10000), ((1, 0), 1/3), ((0, 1), 3)]⟩
  rw [List.foldlM_cons, h2]
  rfl

/-!
## Correctness of the breadth-first search
-/

theorem neighbors_iff {g : ConversionGraph} {x y : ℕ} :
    y ∈ neighbors g x ↔ (x, y) ∈ g.edges := by
  rw [neighbors]
  constructor
  · intro hy
    obtain ⟨e, he, hey⟩ := List.mem_map.mp hy
    obtain ⟨he1, he2⟩ := List.mem_filter.mp he
    have hex : e.1 = x := by simpa using he2
    have : e = (x, y) := by
      obtain ⟨e1, e2⟩ := e
      simp only at hex hey
      rw [hex, hey]
    rw [← this]
    exact he1
  · intro hy
    exact List.mem_map.mpr ⟨(x, y), List.mem_filter.mpr ⟨hy, by simp⟩, rfl⟩

theorem pathWeight_append_single {g : ConversionGraph} :
    ∀ (p : List ℕ) (z y : ℕ), p.getLast? = some z →
      pathWeight g (p ++ [y]) = pathWeight g p * wOf g z y := by
  intro p
  induction p with
  | nil => intro z y h; cases h
  | cons a l ih =>
    intro z y h
    cases l with
    | nil =>
      rw [List.getLast?_singleton] at h
      injection h with h
      subst h
      have h1 : pathWeight g ([a] ++ [y]) = wOf g a y * pathWeight g [y] := rfl
      have h2 : pathWeight g [y] = 1 := rfl
      have h3 : pathWeight g [a] = 1 := rfl
      rw [h1, h2, h3, one_mul, mul_one]
    | cons b m =>
      have hlast : (b :: m).getLast? = some z := by
        rwa [List.getLast?_cons_cons] at h
      have h1 : pathWeight g ((a :: b :: m) ++ [y]) =
          wOf g a b * pathWeight g ((b :: m) ++ [y]) := rfl
      have h2 : pathWeight g (a :: b :: m) = wOf g a b * pathWeight g (b :: m) := rfl
      rw [h1, ih z y hlast, h2, mul_assoc]

/-- Invariant of a single queue entry: its path is a duplicate-free walk
from the source ending at its node, its factor is the composed weight,
all nodes before the last are visited, and all nodes come from the
source or edge targets. -/

theorem EntryOK_mono {g : ConversionGraph} {source : ℕ} {V V' : List ℕ}
    (hsub : ∀ v ∈ V, v ∈ V') {e : BfsEntry} (he : EntryOK g source V e) :
    EntryOK g source V' e :=
  ⟨he.head, he.last, he.walk, he.factor, he.nodup,
    fun v hv => hsub v (he.dropLast_visited v hv), he.subset⟩

theorem mem_path_cases {p : List ℕ} {v z : ℕ} (hlast : p.getLast? = some z)
    (hv : v ∈ p) : v ∈ p.dropLast ∨ v = z := by
  have hne : p ≠ [] := by
    intro hc
    rw [hc] at hlast
    cases hlast
  have hdecomp : p.dropLast ++ [p.getLast hne] = p := List.dropLast_append_getLast hne
  have hzl : p.getLast hne = z := by
    have := List.getLast?_eq_getLast p hne
    rw [this] at hlast
    injection hlast
  rw [← hdecomp] at hv
  rcases List.mem_append.mp hv with h | h
  · exact Or.inl h
  · right
    rw [List.mem_singleton] at h
    rw [h, hzl]

/-- The entry created for an unvisited neighbor is well-formed for the
extended visited set, with path one longer. -/
theorem newEntry_OK {g : ConversionGraph} {source : ℕ} {V : List ℕ} {e : BfsEntry}
    (he : EntryOK g source V e) {y : ℕ} (hadj : y ∈ neighbors g e.node)
    (hnv : ¬ y ∈ e.node :: V) :
    EntryOK g source (e.node :: V) ⟨y, e.path ++ [y], e.factor * wOf g e.node y⟩ := by
  have hne : e.path ≠ [] := by
    intro hc
    have hl := he.last
    rw [hc] at hl
    cases hl
  have hynotp : y ∉ e.path := by
    intro hyp
    rcases mem_path_cases he.last hyp with h | h
    · exact hnv (List.mem_cons_of_mem _ (he.dropLast_visited y h))
    · exact hnv (h ▸ List.mem_cons_self _ _)
  refine ⟨?_, ?_, ?_, ?_, ?_, ?_, ?_⟩
  · show (e.path ++ [y]).head? = some source
    rw [List.head?_append_of_ne_nil _ hne]
    exact he.head
  · show (e.path ++ [y]).getLast? = some y
    rw [List.getLast?_concat]
  · show isWalk g (e.path ++ [y])
    rw [isWalk, List.chain'_append]
    refine ⟨he.walk, List.chain'_singleton y, ?_⟩
    intro x hx y' hy'
    rw [he.last] at hx
    injection hx with hx
    subst hx
    rw [show ([y] : List ℕ).head? = some y from rfl] at hy'
    injection hy' with hy'
    subst hy'
    exact neighbors_iff.mp hadj
  · show e.factor * wOf g e.node y = pathWeight g (e.path ++ [y])
    rw [pathWeight_append_single e.path e.node y he.last, he.factor]
  · show (e.path ++ [y]).Nodup
    rw [List.nodup_append]
    exact ⟨he.nodup, List.nodup_singleton y, by simpa [List.disjoint_singleton] using hynotp⟩
  · show ∀ v ∈ (e.path ++ [y]).dropLast, v ∈ e.node :: V
    rw [List.dropLast_concat]
    intro v hv
    rcases mem_path_cases he.last hv with h | h
    · exact List.mem_cons_of_mem _ (he.dropLast_visited v h)
    · exact h ▸ List.mem_cons_self _ _
  · show ∀ v ∈ e.path ++ [y], v ∈ source :: g.edges.map Prod.snd
    intro v hv
    rcases List.mem_append.mp hv with h | h
    · exact he.subset v h
    · rw [List.mem_singleton] at h
      subst h
      refine List.mem_cons_of_mem _ ?_
      obtain ⟨⟨x1, x2⟩, hx, hxy⟩ := List.mem_map.mp (by
        exact List.mem_map.mpr ⟨(e.node, v), neighbors_iff.mp hadj, rfl⟩ :
          v ∈ g.edges.map Prod.snd)
      exact List.mem_map.mpr ⟨(e.node, v), neighbors_iff.mp hadj, rfl⟩

theorem bfsAux_cons_ne {g : ConversionGraph} {target : ℕ} {fuel : Nat} {e : BfsEntry}
    {queue : List BfsEntry} {visited : List ℕ} (hne : e.node ≠ target) :
    bfsAux g target (fuel + 1) (e :: queue) visited =
      bfsAux g target fuel (stepQueue g e queue visited) (e.node :: visited) := by
  rw [bfsAux, if_neg hne]
  rfl

theorem QueueOK_step {g : ConversionGraph} {source : ℕ} {e : BfsEntry}
    {queue : List BfsEntry} {visited : List ℕ}
    (hq : QueueOK g source (e :: queue) visited) :
    QueueOK g source (stepQueue g e queue visited) (e.node :: visited) := by
  obtain ⟨hok, hsorted, hwin⟩ := hq
  have hoke : EntryOK g source visited e := hok e (List.mem_cons_self _ _)
  have hnew : ∀ e' ∈ ((neighbors g e.node).filter
      (fun y => ¬ y ∈ e.node :: visited)).map
      (fun y => BfsEntry.mk y (e.path ++ [y]) (e.factor * wOf g e.node y)),
      EntryOK g source (e.node :: visited) e' ∧ e'.path.length = e.path.length + 1 := by
    intro e' he'
    obtain ⟨y, hy, hye⟩ := List.mem_map.mp he'
    obtain ⟨hy1, hy2⟩ := List.mem_filter.mp hy
    have hy2' : ¬ y ∈ e.node :: visited := by simpa using hy2
    subst hye
    exact ⟨newEntry_OK hoke hy1 hy2', by simp⟩
  have hfront : ∀ e' ∈ queue, e.path.length ≤ e'.path.length := by
    intro e' he'
    exact (List.pairwise_cons.mp hsorted).1 e' he'
  refine ⟨?_, ?_, ?_⟩
  · intro e' he'
    rcases List.mem_append.mp he' with h | h
    · exact EntryOK_mono (fun v hv => List.mem_cons_of_mem _ hv)
        (hok e' (List.mem_cons_of_mem _ h))
    · exact (hnew e' h).1
  · rw [stepQueue, List.pairwise_append]
    refine ⟨(List.pairwise_cons.mp hsorted).2, ?_, ?_⟩
    · refine List.pairwise_of_forall_mem_list ?_
      intro a ha b hb
      rw [(hnew a ha).2, (hnew b hb).2]
    · intro a ha b hb
      rw [(hnew b hb).2]
      exact hwin a (List.mem_cons_of_mem _ ha) e (List.mem_cons_self _ _)
  · intro e₁ h₁ e₂ h₂
    rcases List.mem_append.mp h₁ with ha | ha <;> rcases List.mem_append.mp h₂ with hb | hb
    · exact hwin e₁ (List.mem_cons_of_mem _ ha) e₂ (List.mem_cons_of_mem _ hb)
    · rw [(hnew e₂ hb).2]
      have := hwin e₁ (List.mem_cons_of_mem _ ha) e (List.mem_cons_self _ _)
      omega
    · rw [(hnew e₁ ha).2]
      have := hfront e₂ hb
      omega
    · rw [(hnew e₁ ha).2, (hnew e₂ hb).2]
      omega

theorem getLast?_get {q : List ℕ} {t : ℕ} (h : q.getLast? = some t)
    (hl : q.length - 1 < q.length) : q.get ⟨q.length - 1, hl⟩ = t := by
  have hne : q ≠ [] := by
    intro hc
    rw [hc] at h
    cases h
  rw [List.get_length_sub_one]
  rw [List.getLast?_eq_getLast q hne] at h
  injection h

theorem head?_get_zero {q : List ℕ} {s : ℕ} (h : q.head? = some s)
    (h0 : 0 < q.length) : q.get ⟨0, h0⟩ = s := by
  cases q with
  | nil => cases h
  | cons a t =>
    rw [List.head?_cons] at h
    injection h

theorem walk_get_edge {g : ConversionGraph} {q : List ℕ} (hw : isWalk g q)
    {j : ℕ} (hj : j + 1 < q.length) :
    (q.get ⟨j, by omega⟩, q.get ⟨j + 1, hj⟩) ∈ g.edges := by
  rw [isWalk, List.chain'_iff_get] at hw
  exact hw j (by omega)

/-- If the dequeued node sits on the competitor walk at index `j` with
the right level bound and the walk beyond `j` is unvisited, the enqueued
extension toward `q.get (j+1)` re-establishes the tracking invariant. -/
theorem CompOK_step_at {g : ConversionGraph} {target : ℕ} {q : List ℕ}
    (hw : isWalk g q) (hlast : q.getLast? = some target) (hnd : q.Nodup)
    {e : BfsEntry} {queue : List BfsEntry} {visited : List ℕ}
    (hne : e.node ≠ target) {j : ℕ} {hj : j < q.length}
    (hjn : q.get ⟨j, hj⟩ = e.node) (hjl : e.path.length ≤ j + 1)
    (hunv : ∀ k, ∀ hk : k < q.length, j < k → q.get ⟨k, hk⟩ ∉ visited) :
    CompOK q (stepQueue g e queue visited) (e.node :: visited) := by
  have hlpos : q.length - 1 < q.length := by
    cases q with
    | nil => cases hlast
    | cons a l => simp
  have hjne : j ≠ q.length - 1 := by
    intro hc
    apply hne
    have hfin : (⟨j, hj⟩ : Fin q.length) = ⟨q.length - 1, hlpos⟩ := Fin.ext hc
    rw [← hjn, hfin]
    exact getLast?_get hlast hlpos
  have hjlt : j + 1 < q.length := by omega
  have hedge : (e.node, q.get ⟨j + 1, hjlt⟩) ∈ g.edges := by
    rw [← hjn]
    exact walk_get_edge hw hjlt
  have hyne : q.get ⟨j + 1, hjlt⟩ ≠ e.node := by
    intro hc
    rw [← hjn] at hc
    have hfin := (List.Nodup.get_inj_iff hnd).mp hc
    have : j + 1 = j := congrArg Fin.val hfin
    omega
  have hyunv : q.get ⟨j + 1, hjlt⟩ ∉ visited := hunv (j + 1) hjlt (by omega)
  have hynv : q.get ⟨j + 1, hjlt⟩ ∉ e.node :: visited := by
    intro hc
    rcases List.mem_cons.mp hc with h | h
    · exact hyne h
    · exact hyunv h
  refine ⟨j + 1, hjlt,
    ⟨⟨q.get ⟨j + 1, hjlt⟩, e.path ++ [q.get ⟨j + 1, hjlt⟩],
      e.factor * wOf g e.node (q.get ⟨j + 1, hjlt⟩)⟩, ?_, rfl, ?_⟩, ?_⟩
  · rw [stepQueue]
    refine List.mem_append_right _ (List.mem_map.mpr ⟨q.get ⟨j + 1, hjlt⟩, ?_, rfl⟩)
    refine List.mem_filter.mpr ⟨neighbors_iff.mpr hedge, ?_⟩
    simpa using hynv
  · simp only [List.length_append, List.length_singleton]
    omega
  · intro k hk hjk hmem
    rcases List.mem_cons.mp hmem with h | h
    · rw [← hjn] at h
      have hfin := (List.Nodup.get_inj_iff hnd).mp h
      have : k = j := congrArg Fin.val hfin
      omega
    · exact hunv k hk (by omega) h

/-- The competitor-tracking invariant survives one dequeue step. -/
theorem CompOK_step {g : ConversionGraph} {source target : ℕ} {q : List ℕ}
    (hw : isWalk g q) (hlast : q.getLast? = some target) (hnd : q.Nodup)
    {e : BfsEntry} {queue : List BfsEntry} {visited : List ℕ}
    (hq : QueueOK g source (e :: queue) visited)
    (hc : CompOK q (e :: queue) visited) (hne : e.node ≠ target) :
    CompOK q (stepQueue g e queue visited) (e.node :: visited) := by
  obtain ⟨i, hi, ⟨ew, hewm, hewn, hewl⟩, hunvis⟩ := hc
  by_cases hA : ∃ j, ∃ hj : j < q.length, i < j ∧ q.get ⟨j, hj⟩ = e.node
  · obtain ⟨j, hj, hij, hjn⟩ := hA
    have hfrontw : e.path.length ≤ ew.path.length := by
      rcases List.mem_cons.mp hewm with h | h
      · rw [h]
      · exact (List.pairwise_cons.mp hq.2.1).1 ew h
    exact CompOK_step_at hw hlast hnd hne hjn (by omega)
      (fun k hk hjk => hunvis k hk (by omega))
  · rcases List.mem_cons.mp hewm with hew | hew
    · subst hew
      exact CompOK_step_at hw hlast hnd hne hewn.symm hewl
        (fun k hk hik => hunvis k hk hik)
    · refine ⟨i, hi, ⟨ew, List.mem_append_left _ hew, hewn, hewl⟩, ?_⟩
      intro k hk hik hmem
      rcases List.mem_cons.mp hmem with h | h
      · exact hA ⟨k, hk, hik, h⟩
      · exact hunvis k hk hik h

theorem bfsAux_cons_eq {g : ConversionGraph} {target : ℕ} {fuel : Nat} {e : BfsEntry}
    {queue : List BfsEntry} {visited : List ℕ} (h : e.node = target) :
    bfsAux g target (fuel + 1) (e :: queue) visited = some (some (e.path, e.factor)) := by
  rw [bfsAux, if_pos h]

/-- Termination potential of the queue: entries of level `l` weigh
`(|edges|+1)^(|searchNodes| - l)`; each dequeue adds at most `|edges|`
entries one level deeper, so the potential strictly decreases. -/

theorem sum_map_const {α : Type} (l : List α) (c : ℕ) :
    (l.map (fun _ => c)).sum = l.length * c := by
  induction l with
  | nil => simp
  | cons a t ih =>
    rw [List.map_cons, List.sum_cons, ih, List.length_cons]
    ring

/-- A well-formed entry's path length is bounded by the number of search
nodes (it is duplicate-free inside them). -/
theorem entry_length_le {g : ConversionGraph} {source : ℕ} {visited : List ℕ}
    {e : BfsEntry} (he : EntryOK g source visited e) :
    e.path.length ≤ (searchNodes g source).length := by
  have h1 : e.path.toFinset ⊆ (searchNodes g source).toFinset := by
    intro v hv
    exact List.mem_toFinset.mpr (List.mem_dedup.mpr (he.subset v (List.mem_toFinset.mp hv)))
  have hnds : (searchNodes g source).Nodup := by
    rw [searchNodes]
    exact List.nodup_dedup _
  have h2 := Finset.card_le_card h1
  rw [List.toFinset_card_of_nodup he.nodup,
    List.toFinset_card_of_nodup hnds] at h2
  exact h2

/-- When an entry's path already exhausts the search nodes, no neighbor
survives the visited filter. -/
theorem filter_eq_nil_of_full {g : ConversionGraph} {source : ℕ} {visited : List ℕ}
    {e : BfsEntry} (he : EntryOK g source visited e)
    (hfull : e.path.length = (searchNodes g source).length) :
    (neighbors g e.node).filter (fun y => ¬ y ∈ e.node :: visited) = [] := by
  rw [List.filter_eq_nil_iff]
  intro y hy hmem
  have hynv : y ∉ e.node :: visited := by simpa using hmem
  have h1 : e.path.toFinset ⊆ (searchNodes g source).toFinset := by
    intro v hv
    exact List.mem_toFinset.mpr (List.mem_dedup.mpr (he.subset v (List.mem_toFinset.mp hv)))
  have hnds : (searchNodes g source).Nodup := by
    rw [searchNodes]
    exact List.nodup_dedup _
  have h2 : (searchNodes g source).toFinset.card ≤ e.path.toFinset.card := by
    rw [List.toFinset_card_of_nodup he.nodup,
      List.toFinset_card_of_nodup hnds, hfull]
  have heqfin := Finset.eq_of_subset_of_card_le h1 h2
  have hyb : y ∈ g.edges.map Prod.snd :=
    List.mem_map.mpr ⟨(e.node, y), neighbors_iff.mp hy, rfl⟩
  have hyfin : y ∈ (searchNodes g source).toFinset :=
    List.mem_toFinset.mpr (List.mem_dedup.mpr (List.mem_cons_of_mem _ hyb))
  have hyp : y ∈ e.path := List.mem_toFinset.mp (heqfin ▸ hyfin)
  rcases mem_path_cases he.last hyp with h | h
  · exact hynv (List.mem_cons_of_mem _ (he.dropLast_visited y h))
  · exact hynv (h ▸ List.mem_cons_self _ _)

/-- The queue potential strictly decreases across a dequeue step. -/
theorem bfsPotential_step {g : ConversionGraph} {source : ℕ} {e : BfsEntry}
    {queue : List BfsEntry} {visited : List ℕ}
    (he : EntryOK g source visited e) :
    bfsPotential g source (stepQueue g e queue visited) <
      bfsPotential g source (e :: queue) := by
  have hlen : e.path.length ≤ (searchNodes g source).length := entry_length_le he
  have hsplit : bfsPotential g source (stepQueue g e queue visited) =
      bfsPotential g source queue +
      ((neighbors g e.node).filter (fun y => ¬ y ∈ e.node :: visited)).length *
        (g.edges.length + 1) ^
          ((searchNodes g source).length - (e.path.length + 1)) := by
    rw [bfsPotential, stepQueue, List.map_append, List.sum_append, List.map_map]
    congr 1
    have hfun : ((fun e => (g.edges.length + 1) ^
          ((searchNodes g source).length - e.path.length)) ∘
        fun y => BfsEntry.mk y (e.path ++ [y]) (e.factor * wOf g e.node y)) =
        fun _ => (g.edges.length + 1) ^
          ((searchNodes g source).length - (e.path.length + 1)) := by
      funext y
      simp [Function.comp]
    rw [hfun, sum_map_const]
  have hcons : bfsPotential g source (e :: queue) =
      (g.edges.length + 1) ^ ((searchNodes g source).length - e.path.length) +
        bfsPotential g source queue := by
    rw [bfsPotential, bfsPotential, List.map_cons, List.sum_cons]
  rcases lt_or_eq_of_le hlen with hlt | heq
  · have hfl : ((neighbors g e.node).filter
        (fun y => ¬ y ∈ e.node :: visited)).length ≤ g.edges.length := by
      calc ((neighbors g e.node).filter (fun y => ¬ y ∈ e.node :: visited)).length ≤
            (neighbors g e.node).length := List.length_filter_le _ _
        _ ≤ g.edges.length := by
            rw [neighbors, List.length_map]
            exact List.length_filter_le _ _
    have hpow : (0:ℕ) < (g.edges.length + 1) ^
        ((searchNodes g source).length - (e.path.length + 1)) :=
      pow_pos (Nat.succ_pos _) _
    have hexp : (searchNodes g source).length - e.path.length =
        ((searchNodes g source).length - (e.path.length + 1)) + 1 := by omega
    rw [hsplit, hcons, hexp, pow_succ]
    have hmul : ((neighbors g e.node).filter
          (fun y => ¬ y ∈ e.node :: visited)).length *
          (g.edges.length + 1) ^
            ((searchNodes g source).length - (e.path.length + 1)) <
        (g.edges.length + 1) ^
            ((searchNodes g source).length - (e.path.length + 1)) *
          (g.edges.length + 1) := by
      calc ((neighbors g e.node).filter
            (fun y => ¬ y ∈ e.node :: visited)).length *
            (g.edges.length + 1) ^
              ((searchNodes g source).length - (e.path.length + 1)) ≤
          g.edges.length * (g.edges.length + 1) ^
              ((searchNodes g source).length - (e.path.length + 1)) :=
            mul_le_mul_right' hfl _
        _ < (g.edges.length + 1) * (g.edges.length + 1) ^
              ((searchNodes g source).length - (e.path.length + 1)) :=
            mul_lt_mul_of_pos_right (Nat.lt_succ_self _) hpow
        _ = (g.edges.length + 1) ^
              ((searchNodes g source).length - (e.path.length + 1)) *
            (g.edges.length + 1) := mul_comm _ _
    omega
  · rw [hsplit, hcons, filter_eq_nil_of_full he heq, heq]
    simp

theorem EntryOK_all_step {g : ConversionGraph} {source : ℕ} {e : BfsEntry}
    {queue : List BfsEntry} {visited : List ℕ}
    (hok : ∀ x ∈ e :: queue, EntryOK g source visited x) :
    ∀ x ∈ stepQueue g e queue visited, EntryOK g source (e.node :: visited) x := by
  intro x hx
  rcases List.mem_append.mp hx with h | h
  · exact EntryOK_mono (fun v hv => List.mem_cons_of_mem _ hv)
      (hok x (List.mem_cons_of_mem _ h))
  · obtain ⟨y, hy, hye⟩ := List.mem_map.mp h
    obtain ⟨hy1, hy2⟩ := List.mem_filter.mp hy
    have hy2x : ¬ y ∈ e.node :: visited := by simpa using hy2
    subst hye
    exact newEntry_OK (hok e (List.mem_cons_self _ _)) hy1 hy2x

/-- Master induction: while the tracking invariant holds for a
duplicate-free competitor walk `q` from source to target and the fuel
dominates the potential, the search returns a found result whose path is
a source-to-target walk no longer than `q`, with the composed factor. -/
theorem bfsAux_master {g : ConversionGraph} {source target : ℕ} {q : List ℕ}
    (hw : isWalk g q) (hlast : q.getLast? = some target) (hnd : q.Nodup) :
    ∀ (fuel : ℕ) (queue : List BfsEntry) (visited : List ℕ),
      bfsPotential g source queue < fuel →
      QueueOK g source queue visited → CompOK q queue visited →
      ∃ p f, bfsAux g target fuel queue visited = some (some (p, f)) ∧
        p.head? = some source ∧ p.getLast? = some target ∧ isWalk g p ∧
        f = pathWeight g p ∧ p.length ≤ q.length := by
  intro fuel
  induction fuel with
  | zero =>
    intro queue visited hpot hqok hcomp
    exact absurd hpot (Nat.not_lt_zero _)
  | succ fuel ih =>
    intro queue visited hpot hqok hcomp
    cases queue with
    | nil =>
      obtain ⟨i, hi, ⟨ew, hewm, -, -⟩, -⟩ := hcomp
      cases hewm
    | cons e rest =>
      by_cases htgt : e.node = target
      · obtain ⟨i, hi, ⟨ew, hewm, hewn, hewl⟩, hunvis⟩ := hcomp
        have he : EntryOK g source visited e := hqok.1 e (List.mem_cons_self _ _)
        have hfront : e.path.length ≤ ew.path.length := by
          rcases List.mem_cons.mp hewm with h | h
          · rw [h]
          · exact (List.pairwise_cons.mp hqok.2.1).1 ew h
        refine ⟨e.path, e.factor, bfsAux_cons_eq htgt, he.head, ?_, he.walk,
          he.factor, ?_⟩
        · rw [he.last, htgt]
        · omega
      · rw [bfsAux_cons_ne htgt]
        have hdec := @bfsPotential_step g source e rest visited
          (hqok.1 e (List.mem_cons_self _ _))
        exact ih _ _ (by omega) (QueueOK_step hqok)
          (CompOK_step hw hlast hnd hqok hcomp htgt)

/-- The initial queue of `bfsSearch` satisfies the queue invariant. -/
theorem init_QueueOK (g : ConversionGraph) (source : ℕ) :
    QueueOK g source [⟨source, [source], 1⟩] [] := by
  refine ⟨?_, List.pairwise_singleton _ _, ?_⟩
  · intro e he
    rw [List.mem_singleton] at he
    subst he
    refine ⟨rfl, rfl, List.chain'_singleton _, rfl, List.nodup_singleton _, ?_, ?_⟩
    · intro v hv
      exact absurd hv (List.not_mem_nil v)
    · intro v hv
      rw [List.mem_singleton] at hv
      subst hv
      exact List.mem_cons_self _ _
  · intro e₁ h₁ e₂ h₂
    rw [List.mem_singleton] at h₁ h₂
    subst h₁
    subst h₂
    omega

/-- The initial queue tracks any competitor walk leaving the source. -/
theorem init_CompOK {q : List ℕ} {source : ℕ} (hh : q.head? = some source) :
    CompOK q [⟨source, [source], 1⟩] [] := by
  have h0 : 0 < q.length := by
    cases q with
    | nil => cases hh
    | cons a t => simp
  refine ⟨0, h0, ⟨⟨source, [source], 1⟩, List.mem_singleton.mpr rfl,
    (head?_get_zero hh h0).symm, by simp⟩, ?_⟩
  intro j hj h0j hmem
  exact absurd hmem (List.not_mem_nil _)

/-- The chosen fuel dominates the initial potential. -/
theorem init_potential_lt (g : ConversionGraph) (source : ℕ) :
    bfsPotential g source [⟨source, [source], 1⟩] < bfsFuel g source := by
  have h1 : bfsPotential g source [⟨source, [source], 1⟩] =
      (g.edges.length + 1) ^ ((searchNodes g source).length - 1) := by
    simp [bfsPotential]
  have h2 : (g.edges.length + 1) ^ ((searchNodes g source).length - 1) ≤
      (g.edges.length + 1) ^ (searchNodes g source).length :=
    Nat.pow_le_pow_right (Nat.succ_pos _) (Nat.sub_le _ _)
  rw [h1, bfsFuel]
  omega

/-- `bfsSearch` against a fixed duplicate-free competitor walk. -/
theorem bfsSearch_master {g : ConversionGraph} {source target : ℕ} {q : List ℕ}
    (hw : isWalk g q) (hh : q.head? = some source) (hlast : q.getLast? = some target)
    (hnd : q.Nodup) :
    ∃ p f, bfsSearch g source target = some (some (p, f)) ∧
      p.head? = some source ∧ p.getLast? = some target ∧ isWalk g p ∧
      f = pathWeight g p ∧ p.length ≤ q.length := by
  rw [bfsSearch]
  exact bfsAux_master hw hlast hnd (bfsFuel g source) _ _
    (init_potential_lt g source) (init_QueueOK g source) (init_CompOK hh)

theorem sublist_pair_decomp {a : ℕ} : ∀ {l : List ℕ}, [a, a].Sublist l →
    ∃ l₁ l₂ l₃, l = l₁ ++ a :: (l₂ ++ a :: l₃) := by
  intro l h
  induction l with
  | nil => cases h
  | cons b t ih =>
    cases h with
    | cons _ h2 =>
      obtain ⟨l₁, l₂, l₃, hdec⟩ := ih h2
      exact ⟨b :: l₁, l₂, l₃, by rw [hdec]; rfl⟩
    | cons₂ _ h2 =>
      obtain ⟨l₂, l₃, hdec⟩ := List.append_of_mem (List.singleton_sublist.mp h2)
      exact ⟨[], l₂, l₃, by rw [hdec]; rfl⟩

/-- Every source-to-target walk contains a duplicate-free walk between
the same endpoints that is no longer. -/
theorem walk_shorten {g : ConversionGraph} :
    ∀ (n : ℕ) (q : List ℕ) (s t : ℕ), q.length ≤ n → isWalkFromTo g q s t →
      ∃ r, isWalkFromTo g r s t ∧ r.Nodup ∧ r.length ≤ q.length := by
  intro n
  induction n with
  | zero =>
    intro q s t hlen hq
    cases q with
    | nil => cases hq.2.1
    | cons a u => simp at hlen
  | succ n ih =>
    intro q s t hlen hq
    by_cases hnd : q.Nodup
    · exact ⟨q, hq, hnd, le_refl _⟩
    · obtain ⟨a, ha⟩ := List.exists_duplicate_iff_not_nodup.mpr hnd
      obtain ⟨l₁, l₂, l₃, hdec⟩ := sublist_pair_decomp (List.duplicate_iff_sublist.mp ha)
      subst hdec
      obtain ⟨hwk, hhd, hlt⟩ := hq
      rw [isWalk, List.chain'_append] at hwk
      obtain ⟨h1, h2, h3⟩ := hwk
      have h2s : List.Chain' (fun x y => (x, y) ∈ g.edges) (a :: l₃) :=
        h2.suffix ⟨a :: l₂, by simp⟩
      have hwq : isWalk g (l₁ ++ a :: l₃) := by
        rw [isWalk, List.chain'_append]
        refine ⟨h1, h2s, ?_⟩
        intro x hx y hy
        have hy2 : (a :: l₃).head? = some y := Option.mem_def.mp hy
        rw [List.head?_cons] at hy2
        injection hy2 with hy2
        subst hy2
        exact h3 x hx a (Option.mem_def.mpr rfl)
      have hhd2 : (l₁ ++ a :: l₃).head? = some s := by
        cases l₁ with
        | nil =>
          rw [List.nil_append, List.head?_cons] at hhd ⊢
          exact hhd
        | cons b m => exact hhd
      have hlt2 : (l₁ ++ a :: l₃).getLast? = some t := by
        rw [List.getLast?_append_cons] at hlt ⊢
        rw [show a :: (l₂ ++ a :: l₃) = (a :: l₂) ++ a :: l₃ from by simp,
          List.getLast?_append_cons] at hlt
        exact hlt
      have hshort : (l₁ ++ a :: l₃).length <
          (l₁ ++ a :: (l₂ ++ a :: l₃)).length := by
        simp
        omega
      obtain ⟨r, hr1, hr2, hr3⟩ := ih (l₁ ++ a :: l₃) s t (by
        have := hlen
        simp at this ⊢
        omega) ⟨hwq, hhd2, hlt2⟩
      exact ⟨r, hr1, hr2, by omega⟩

/-- Whenever source and target are connected at all, the search finds a
shortest source-to-target walk and returns its composed factor. -/
theorem bfsSearch_finds {g : ConversionGraph} {source target : ℕ} {q : List ℕ}
    (hq : isWalkFromTo g q source target) :
    ∃ p f, bfsSearch g source target = some (some (p, f)) ∧
      isWalkFromTo g p source target ∧ f = pathWeight g p ∧
      ∀ r, isWalkFromTo g r source target → p.length ≤ r.length := by
  obtain ⟨q₀, hq₀, hnd₀, hlen₀⟩ := walk_shorten q.length q source target (le_refl _) hq
  obtain ⟨p, f, heq, hh, hl, hwk, hf, -⟩ :=
    bfsSearch_master hq₀.1 hq₀.2.1 hq₀.2.2 hnd₀
  refine ⟨p, f, heq, ⟨hwk, hh, hl⟩, hf, ?_⟩
  intro r hr
  obtain ⟨r₀, hr₀, hrnd, hrlen⟩ := walk_shorten r.length r source target (le_refl _) hr
  obtain ⟨p2, f2, heq2, -, -, -, -, hplen2⟩ :=
    bfsSearch_master hr₀.1 hr₀.2.1 hr₀.2.2 hrnd
  rw [heq] at heq2
  injection heq2 with heq2
  injection heq2 with heq2
  have hpp : p = p2 := congrArg Prod.fst heq2
  rw [hpp]
  omega

/-- The search never runs out of fuel: the potential argument needs only
the per-entry invariant. -/
theorem bfsAux_ne_none {g : ConversionGraph} {source target : ℕ} :
    ∀ (fuel : ℕ) (queue : List BfsEntry) (visited : List ℕ),
      bfsPotential g source queue < fuel →
      (∀ e ∈ queue, EntryOK g source visited e) →
      bfsAux g target fuel queue visited ≠ none := by
  intro fuel
  induction fuel with
  | zero =>
    intro queue visited hpot hok
    exact absurd hpot (Nat.not_lt_zero _)
  | succ fuel ih =>
    intro queue visited hpot hok
    cases queue with
    | nil =>
      rw [show bfsAux g target (fuel + 1) [] visited = some none from rfl]
      intro hc
      cases hc
    | cons e rest =>
      by_cases htgt : e.node = target
      · rw [bfsAux_cons_eq htgt]
        intro hc
        cases hc
      · rw [bfsAux_cons_ne htgt]
        have hdec := @bfsPotential_step g source e rest visited
          (hok e (List.mem_cons_self _ _))
        exact ih _ _ (by omega) (EntryOK_all_step hok)

/-- The fixed fuel suffices on every graph and query. -/
theorem bfsSearch_ne_none (g : ConversionGraph) (source target : ℕ) :
    bfsSearch g source target ≠ none := by
  rw [bfsSearch]
  exact bfsAux_ne_none (bfsFuel g source) _ _ (init_potential_lt g source)
    (init_QueueOK g source).1

/-- A list with distinct first and last elements has length at least 2. -/
theorem two_le_length_of_ends {r : List ℕ} {a b : ℕ} (hne : a ≠ b)
    (hh : r.head? = some a) (hl : r.getLast? = some b) : 2 ≤ r.length := by
  cases r with
  | nil => cases hh
  | cons x u =>
    cases u with
    | nil =>
      rw [List.head?_cons] at hh
      injection hh with hh
      rw [List.getLast?_singleton] at hl
      injection hl with hl
      exact absurd (hh.symm.trans hl) hne
    | cons y v => simp

/-- C3.  When the target resolves, the graph build succeeds, and source
and target are connected by at least one path, `convert_to` returns a
found result whose path is a source-to-target walk of minimal length —
hence minimal edge count — among all source-to-target paths in the
graph, whose factor is the product of the edge weights along that path,
and whose amount is the input amount times that factor. -/
theorem C3_shortest_path (cs : CurrencyStore) (rs : RateStore) (source : ℕ)
    (tref : TargetRef) (amount : ℚ) (g : ConversionGraph) (target : ℕ) (q : List ℕ)
    (hres : resolveTarget cs tref = some target)
    (hbuild : buildGraph rs = Except.ok g)
    (hconn : isWalkFromTo g q source target) :
    ∃ p f, convert_to cs rs source tref amount = Except.ok (some (p, f), amount * f) ∧
      isWalkFromTo g p source target ∧ f = pathWeight g p ∧
      ∀ r, isWalkFromTo g r source target → p.length ≤ r.length := by
  obtain ⟨p, f, heq, hwp, hf, hopt⟩ := bfsSearch_finds hconn
  refine ⟨p, f, ?_, hwp, hf, hopt⟩
  simp only [convert_to, hres, hbuild, heq]

/-- Witness for C3: converting 100 units over the single stored rate
`(6, 7, date 9, factor 1)`. -/
theorem C3_shortest_path_witness :
    ∃ p f, convert_to [] [⟨6, 7, 9, 1⟩] 6 (.obj 7) 100 =
        Except.ok (some (p, f), 100 * f) ∧
      isWalkFromTo ⟨[(6, 7), (7, 6)], [((7, 6), 1/1), ((6, 7), 1)]⟩ p 6 7 ∧
      f = pathWeight ⟨[(6, 7), (7, 6)], [((7, 6), 1/1), ((6, 7), 1)]⟩ p ∧
      ∀ r, isWalkFromTo ⟨[(6, 7), (7, 6)], [((7, 6), 1/1), ((6, 7), 1)]⟩ r 6 7 →
        p.length ≤ r.length := by
  refine C3_shortest_path [] [⟨6, 7, 9, 1⟩] 6 (.obj 7) 100 _ 7 [6, 7] rfl ?_ ?_
  · rw [buildGraph, show ratePairs [⟨6, 7, 9, 1⟩] = [(6, 7)] from rfl, List.foldlM_cons,
      buildStep_ok (show latestRate [⟨6, 7, 9, 1⟩] 6 7 = some ⟨6, 7, 9, 1⟩ from rfl)
        (by decide)]
    rfl
  · exact ⟨List.chain'_pair.mpr (by simp), rfl, rfl⟩

/-- C9.  The search always terminates — on any graph, cyclic or not, the
visited set bounds the explored entries, so the fixed fuel is never
exhausted and a successful build always yields a returned result — and
adding edges (for instance a cycle) that do not shorten any
source-to-target connection leaves the returned hop count unchanged. -/
theorem C9_termination_and_cycles :
    (∀ (g : ConversionGraph) (source target : ℕ), bfsSearch g source target ≠ none) ∧
    (∀ (cs : CurrencyStore) (rs : RateStore) (source : ℕ) (tref : TargetRef)
      (amount : ℚ) (g : ConversionGraph), buildGraph rs = Except.ok g →
      ∃ res, convert_to cs rs source tref amount = Except.ok res) ∧
    (∀ (g gc : ConversionGraph) (source target : ℕ),
      (∀ e ∈ g.edges, e ∈ gc.edges) →
      (∃ q, isWalkFromTo g q source target) →
      (∀ r, isWalkFromTo gc r source target →
        ∃ r₀, isWalkFromTo g r₀ source target ∧ r₀.length ≤ r.length) →
      ∃ p f pc fc, bfsSearch g source target = some (some (p, f)) ∧
        bfsSearch gc source target = some (some (pc, fc)) ∧ pc.length = p.length) := by
  refine ⟨bfsSearch_ne_none, ?_, ?_⟩
  · intro cs rs source tref amount g hbuild
    cases hres : resolveTarget cs tref with
    | none =>
      refine ⟨(none, amount), ?_⟩
      simp only [convert_to, hres]
    | some tpk =>
      cases hs : bfsSearch g source tpk with
      | none => exact absurd hs (bfsSearch_ne_none g source tpk)
      | some o =>
        cases o with
        | none =>
          refine ⟨(none, amount), ?_⟩
          simp only [convert_to, hres, hbuild, hs]
        | some pf =>
          obtain ⟨pp, ff⟩ := pf
          refine ⟨(some (pp, ff), amount * ff), ?_⟩
          simp only [convert_to, hres, hbuild, hs]
  · intro g gc source target hsub hconn hnoshort
    obtain ⟨q, hq⟩ := hconn
    obtain ⟨p, f, hps, hwp, -, hopt⟩ := bfsSearch_finds hq
    have hqc : isWalkFromTo gc q source target :=
      ⟨List.Chain'.imp (fun a b hab => hsub _ hab) hq.1, hq.2⟩
    obtain ⟨pc, fc, hpcs, hwpc, -, hoptc⟩ := bfsSearch_finds hqc
    refine ⟨p, f, pc, fc, hps, hpcs, ?_⟩
    have h1 : pc.length ≤ p.length :=
      hoptc p ⟨List.Chain'.imp (fun a b hab => hsub _ hab) hwp.1, hwp.2⟩
    obtain ⟨r₀, hr₀, hrlen⟩ := hnoshort pc hwpc
    have h2 : p.length ≤ r₀.length := hopt r₀ hr₀
    omega

/-- Witness for C9: termination on a one-edge graph, a total conversion
on the empty store, and an unchanged hop count after closing the edge
`(8, 9)` into a two-cycle. -/
theorem C9_termination_and_cycles_witness :
    bfsSearch ⟨[(8, 9)], [((8, 9), 1)]⟩ 8 9 ≠ none ∧
    (∃ res, convert_to [] [] 8 (.obj 9) 3 = Except.ok res) ∧
    (∃ p f pc fc,
      bfsSearch ⟨[(8, 9)], [((8, 9), 1)]⟩ 8 9 = some (some (p, f)) ∧
      bfsSearch ⟨[(8, 9), (9, 8)], [((8, 9), 1)]⟩ 8 9 = some (some (pc, fc)) ∧
      pc.length = p.length) := by
  refine ⟨C9_termination_and_cycles.1 ⟨[(8, 9)], [((8, 9), 1)]⟩ 8 9,
    C9_termination_and_cycles.2.1 [] [] 8 (.obj 9) 3 ⟨[], []⟩ rfl, ?_⟩
  refine C9_termination_and_cycles.2.2 ⟨[(8, 9)], [((8, 9), 1)]⟩
    ⟨[(8, 9), (9, 8)], [((8, 9), 1)]⟩ 8 9 ?_ ?_ ?_
  · intro e he
    rw [List.mem_singleton] at he
    subst he
    simp
  · exact ⟨[8, 9], List.chain'_pair.mpr (by simp), rfl, rfl⟩
  · intro r hr
    refine ⟨[8, 9], ⟨List.chain'_pair.mpr (by simp), rfl, rfl⟩, ?_⟩
    have h2 := two_le_length_of_ends (by decide) hr.2.1 hr.2.2
    simpa using h2
